import Mathlib

/-!
# Verification of the CUDA sort operators (`topi/cuda/sort.py`)

This file gives a shallow embedding, as Lean functions, of the two sort
kernel builders and the surrounding facades of `python/tvm/topi/cuda/sort.py`:

* `sort_ir` — the bottom-up merge-sort engine with its ping-pong buffer
  pair (`values_out` / `values_out_swap`) and optional index tracking;
* `sort_nms_ir` — the segmented odd-even transposition sort bounded by a
  per-segment `valid_count`;
* the `topk` / `argsort` facades.

Segments (fixed `(before, after)` coordinates of the flat layout) are fully
independent in the source: every kernel thread addresses only offsets
`(by * axisLen + i) * after + bz` for its own `(by, bz)` pair.  The
embedding therefore models one segment: a finite sequence of values along
the sort axis, as a `List Int`.  Index buffers are modelled in lockstep as
the second component of `Int × Nat` pairs, since the source moves
`indices_out` entries together with `values_out` entries.
-/

namespace TvmSort

/-- The comparator of `sort_ir` (`compare` in the source): for ascending
order `a <= b`, for descending order `b <= a`. -/
def cmpLe (isAscend : Bool) (a b : Int) : Bool :=
  if isAscend then decide (a ≤ b) else decide (b ≤ a)

/-- Seed pass of `sort_ir`: each element is copied to the output buffer at
its own axis position, and the index buffer is seeded with the position
itself (`indices_out[idx] = tid`). -/
def seedPairs (data : List Int) : List (Int × Nat) :=
  data.zip (List.range data.length)

/-- Number of merge rounds of `sort_ir`: `lim = ceil(log2(axisLen))`
(the host loop `for l2_width in range(lim)`), i.e. the least `k` with
`axisLen ≤ 2^k`; `numRounds_eq_clog` below identifies it with
`Nat.clog 2 n`.  For `n = 0` the loop body never runs on any element. -/
def numRounds (n : Nat) : Nat :=
  ((List.range (n + 1)).find? (fun k => n ≤ 2 ^ k)).getD 0

theorem range'_find?_le {p : Nat → Bool} :
    ∀ (m s k : Nat), s ≤ k → k < s + m → p k = true →
      ∃ a, (List.range' s m).find? p = some a ∧ a ≤ k ∧ p a = true := by
  intro m
  induction m with
  | zero => intro s k h1 h2 _; omega
  | succ m ih =>
    intro s k h1 h2 hp
    rw [List.range'_succ]
    by_cases hs : p s = true
    · exact ⟨s, by rw [List.find?_cons_of_pos _ hs], h1, hs⟩
    · have hks : k ≠ s := fun he => hs (he ▸ hp)
      obtain ⟨a, ha, hak, hpa⟩ := ih (s + 1) k (by omega) (by omega) hp
      exact ⟨a, by rw [List.find?_cons_of_neg _ (by simpa using hs)]; exact ha, hak, hpa⟩

/-- `numRounds` is exactly `ceil(log2 n)` in its `Nat.clog` form. -/
theorem numRounds_eq_clog (n : Nat) : numRounds n = Nat.clog 2 n := by
  have hclog_le : Nat.clog 2 n ≤ n := by
    rw [← Nat.le_pow_iff_clog_le one_lt_two]
    exact Nat.le_of_lt (Nat.lt_two_pow n)
  have hp : (n ≤ 2 ^ Nat.clog 2 n) := Nat.le_pow_clog one_lt_two n
  obtain ⟨a, ha, hak, hpa⟩ := @range'_find?_le (fun k => decide (n ≤ 2 ^ k)) (n + 1) 0
    (Nat.clog 2 n) (Nat.zero_le _) (by omega) (by simp only [decide_eq_true_eq]; exact hp)
  rw [numRounds, List.range_eq_range', ha]
  simp only [Option.getD_some]
  have h2 : Nat.clog 2 n ≤ a := (Nat.le_pow_iff_clog_le one_lt_two).mp (by simpa using hpa)
  omega

/-- One thread's merge in `bottom_up_merge`: two read cursors sweep the two
sorted halves; while both are in range the comparator picks the side to
emit (`assign_i` when `compare(source[i], source[j])`, ties going to the
left half), and once a cursor exhausts its half the rest of the other half
is copied verbatim. -/
def mergeRuns (isAscend : Bool) : List (Int × Nat) → List (Int × Nat) → List (Int × Nat)
  | [], r => r
  | l, [] => l
  | a :: l, b :: r =>
    if cmpLe isAscend a.1 b.1 then a :: mergeRuns isAscend l (b :: r)
    else b :: mergeRuns isAscend (a :: l) r
  termination_by l r => l.length + r.length

/-- One merge round (`mergesort` in the source): thread `tid` covers the run
`[width*tid, min(width*(tid+1), size))`, split at
`middle = min(start + width/2, size)`, and merges the two halves.  The runs
tile the whole buffer, so the round is a function from the source buffer to
the destination buffer; recursion peels one run (`take w`) at a time. -/
def mergeChunks (isAscend : Bool) (w : Nat) (l : List (Int × Nat)) : List (Int × Nat) :=
  if h : w = 0 ∨ l = [] then l
  else
    mergeRuns isAscend (l.take (w / 2)) ((l.take w).drop (w / 2)) ++
      mergeChunks isAscend w (l.drop w)
  termination_by l.length
  decreasing_by
    simp only [not_or] at h
    have hl : l.length ≠ 0 := by simpa [List.length_eq_zero] using h.2
    have hw : 0 < w := Nat.pos_of_ne_zero h.1
    simpa using Nat.sub_lt (Nat.pos_of_ne_zero hl) hw

/-- The ping-pong buffer pair of `sort_ir`: `bufA` is the output buffer
`values_out`/`indices_out`, `bufB` the swap pair
`values_out_swap`/`indices_out_swap`. -/
structure PingPong where
  bufA : List (Int × Nat)
  bufB : List (Int × Nat)
  deriving Repr, DecidableEq

/-- Merge round `r` of `sort_ir` with `width = 2 << r`: when
`indexmod(l2_width, 2) == 0` the kernel reads `values_out` and writes
`values_out_swap`, otherwise the roles swap (`swap_values(dest, source, …)`
branch). -/
def roundStep (isAscend : Bool) (st : PingPong) (r : Nat) : PingPong :=
  if r % 2 = 0 then ⟨st.bufA, mergeChunks isAscend (2 ^ (r + 1)) st.bufA⟩
  else ⟨mergeChunks isAscend (2 ^ (r + 1)) st.bufB, st.bufB⟩

/-- The state of both buffers after the seed pass and all
`numRounds` host-loop iterations of `sort_ir`.  The swap buffer is
uninitialised in the source before round 0 and is modelled as `[]`; round 0
overwrites it completely before it is ever read. -/
def sortIrRun (isAscend : Bool) (data : List Int) : PingPong :=
  (List.range (numRounds data.length)).foldl (roundStep isAscend) ⟨seedPairs data, []⟩

/-- Output of `sort_ir`: if `indexmod(lim, 2) == 1` the final pass copies
the swap buffer into the output buffer, so the observable result is
`bufB`; otherwise the output buffer `bufA` already holds it. -/
def sortIrOut (isAscend : Bool) (data : List Int) : List (Int × Nat) :=
  if numRounds data.length % 2 = 1 then (sortIrRun isAscend data).bufB
  else (sortIrRun isAscend data).bufA

/-- The sorted value buffer produced by `sort_ir`. -/
def sortIrValues (isAscend : Bool) (data : List Int) : List Int :=
  (sortIrOut isAscend data).map Prod.fst

/-- The index buffer produced by `sort_ir` when index tracking is on. -/
def sortIrIndices (isAscend : Bool) (data : List Int) : List Nat :=
  (sortIrOut isAscend data).map Prod.snd

/-- The straight-line form of the round loop: each round merges chunks of
the single logical array, with no ping-pong bookkeeping. -/
def straightSort (isAscend : Bool) (data : List Int) : List (Int × Nat) :=
  (List.range (numRounds data.length)).foldl
    (fun l r => mergeChunks isAscend (2 ^ (r + 1)) l) (seedPairs data)

/-- The order in which `sort_ir` arranges `(value, original index)` pairs:
strictly smaller value first (direction given by `isAscend`), ties broken
by the original axis position. -/
def lexLe (isAscend : Bool) (x y : Int × Nat) : Prop :=
  (if isAscend then x.1 < y.1 else y.1 < x.1) ∨ (x.1 = y.1 ∧ x.2 ≤ y.2)

theorem lexLe_of_cmp (isAscend : Bool) {a b : Int × Nat}
    (h : cmpLe isAscend a.1 b.1 = true) (hidx : a.2 ≤ b.2) : lexLe isAscend a b := by
  cases isAscend <;> simp [cmpLe] at h <;> simp [lexLe] <;>
    [rcases lt_or_eq_of_le h with h' | h'; rcases lt_or_eq_of_le h with h' | h']
  · exact Or.inl h'
  · exact Or.inr ⟨h'.symm, hidx⟩
  · exact Or.inl h'
  · exact Or.inr ⟨h', hidx⟩

theorem lexLe_of_not_cmp (isAscend : Bool) {a b : Int × Nat}
    (h : cmpLe isAscend a.1 b.1 = false) : lexLe isAscend b a := by
  cases isAscend <;> simp [cmpLe] at h <;> simp [lexLe] <;> exact Or.inl h

instance lexLe_isTrans (isAscend : Bool) : IsTrans (Int × Nat) (lexLe isAscend) where
  trans := by
    intro a b c hab hbc
    cases isAscend <;> simp only [lexLe, if_true, if_false, Bool.false_eq_true] at * <;>
      rcases hab with h1 | ⟨e1, i1⟩ <;> rcases hbc with h2 | ⟨e2, i2⟩
    · exact Or.inl (lt_trans h2 h1)
    · exact Or.inl (e2 ▸ h1)
    · exact Or.inl (e1 ▸ h2)
    · exact Or.inr ⟨e1.trans e2, le_trans i1 i2⟩
    · exact Or.inl (lt_trans h1 h2)
    · exact Or.inl (e2 ▸ h1)
    · exact Or.inl (e1 ▸ h2)
    · exact Or.inr ⟨e1.trans e2, le_trans i1 i2⟩

instance lexLe_isAntisymm (isAscend : Bool) : IsAntisymm (Int × Nat) (lexLe isAscend) where
  antisymm := by
    intro a b hab hba
    cases isAscend <;> simp only [lexLe, if_true, if_false, Bool.false_eq_true] at * <;>
      rcases hab with h1 | ⟨e1, i1⟩ <;> rcases hba with h2 | ⟨e2, i2⟩ <;>
      first
        | exact absurd h1 (asymm h2)
        | exact absurd h1 (by rw [e2]; exact lt_irrefl _)
        | exact absurd h2 (by rw [e1]; exact lt_irrefl _)
        | exact Prod.ext e1 (le_antisymm i1 i2)

instance lexLe_isTotal (isAscend : Bool) : IsTotal (Int × Nat) (lexLe isAscend) where
  total := by
    intro a b
    rcases lt_trichotomy a.1 b.1 with h | h | h <;> cases isAscend <;>
      simp only [lexLe, if_true, if_false, Bool.false_eq_true]
    · exact Or.inr (Or.inl h)
    · exact Or.inl (Or.inl h)
    · rcases Nat.le_total a.2 b.2 with hi | hi
      · exact Or.inl (Or.inr ⟨h, hi⟩)
      · exact Or.inr (Or.inr ⟨h.symm, hi⟩)
    · rcases Nat.le_total a.2 b.2 with hi | hi
      · exact Or.inl (Or.inr ⟨h, hi⟩)
      · exact Or.inr (Or.inr ⟨h.symm, hi⟩)
    · exact Or.inl (Or.inl h)
    · exact Or.inr (Or.inl h)

theorem mergeRuns_perm (isAscend : Bool) :
    ∀ l r, (mergeRuns isAscend l r).Perm (l ++ r)
  | [], r => by simp [mergeRuns]
  | a :: l, [] => by simp [mergeRuns]
  | a :: l, b :: r => by
    rw [mergeRuns]
    split
    · exact (mergeRuns_perm isAscend l (b :: r)).cons a
    · exact ((mergeRuns_perm isAscend (a :: l) r).cons b).trans List.perm_middle.symm
  termination_by l r => l.length + r.length

theorem mergeRuns_sorted (isAscend : Bool) :
    ∀ l r, List.Sorted (lexLe isAscend) l → List.Sorted (lexLe isAscend) r →
      (∀ a ∈ l, ∀ b ∈ r, a.2 < b.2) → List.Sorted (lexLe isAscend) (mergeRuns isAscend l r)
  | [], r, _, hr, _ => by simpa [mergeRuns] using hr
  | a :: l, [], hl, _, _ => by simpa [mergeRuns] using hl
  | a :: l, b :: r, hl, hr, hsep => by
    rw [mergeRuns]
    rcases List.sorted_cons.mp hl with ⟨hal, hl'⟩
    rcases List.sorted_cons.mp hr with ⟨hbr, hr'⟩
    split
    next hcmp =>
      refine List.sorted_cons.mpr ⟨?_, ?_⟩
      · intro x hx
        have hx' := (mergeRuns_perm isAscend l (b :: r)).mem_iff.mp hx
        rcases List.mem_append.mp hx' with hx' | hx'
        · exact hal x hx'
        · have hab : lexLe isAscend a b :=
            lexLe_of_cmp isAscend hcmp
              (le_of_lt (hsep a (List.mem_cons_self a l) b (List.mem_cons_self b r)))
          rcases List.mem_cons.mp hx' with rfl | hx'
          · exact hab
          · exact IsTrans.trans _ _ _ hab (hbr x hx')
      · exact mergeRuns_sorted isAscend l (b :: r) hl' hr
          (fun x hx y hy => hsep x (List.mem_cons_of_mem a hx) y hy)
    next hcmp =>
      refine List.sorted_cons.mpr ⟨?_, ?_⟩
      · intro x hx
        have hx' := (mergeRuns_perm isAscend (a :: l) r).mem_iff.mp hx
        have hba : lexLe isAscend b a :=
          lexLe_of_not_cmp isAscend (Bool.of_not_eq_true hcmp)
        rcases List.mem_append.mp hx' with hx' | hx'
        · rcases List.mem_cons.mp hx' with rfl | hx'
          · exact hba
          · exact IsTrans.trans _ _ _ hba (hal x hx')
        · exact hbr x hx'
      · exact mergeRuns_sorted isAscend (a :: l) r hl hr'
          (fun x hx y hy => hsep x hx y (List.mem_cons_of_mem b hy))
  termination_by l r => l.length + r.length

/-- Every chunk of `w` consecutive slots (the runs of one merge round) is
sorted in the pair order. -/
def sortedChunks (isAscend : Bool) (w : Nat) (l : List (Int × Nat)) : Prop :=
  if h : w = 0 ∨ l = [] then True
  else List.Sorted (lexLe isAscend) (l.take w) ∧ sortedChunks isAscend w (l.drop w)
  termination_by l.length
  decreasing_by
    simp only [not_or] at h
    have hl : l.length ≠ 0 := by simpa [List.length_eq_zero] using h.2
    simpa using Nat.sub_lt (Nat.pos_of_ne_zero hl) (Nat.pos_of_ne_zero h.1)

/-- Every chunk of `w` consecutive slots holds exactly pairs whose original
index lies in that chunk's own index window. -/
def chunkAligned (w : Nat) (base : Nat) (l : List (Int × Nat)) : Prop :=
  if h : w = 0 ∨ l = [] then True
  else (∀ x ∈ l.take w, base ≤ x.2 ∧ x.2 < base + w) ∧
    chunkAligned w (base + w) (l.drop w)
  termination_by l.length
  decreasing_by
    simp only [not_or] at h
    have hl : l.length ≠ 0 := by simpa [List.length_eq_zero] using h.2
    simpa using Nat.sub_lt (Nat.pos_of_ne_zero hl) (Nat.pos_of_ne_zero h.1)

theorem sortedChunks_nil (isAscend : Bool) (w : Nat) : sortedChunks isAscend w [] := by
  rw [sortedChunks]; simp

theorem chunkAligned_nil (w base : Nat) : chunkAligned w base [] := by
  rw [chunkAligned]; simp

theorem sortedChunks_iff (isAscend : Bool) {w : Nat} (hw : w ≠ 0) (l : List (Int × Nat)) :
    sortedChunks isAscend w l ↔
      List.Sorted (lexLe isAscend) (l.take w) ∧ sortedChunks isAscend w (l.drop w) := by
  cases l with
  | nil => simp [sortedChunks_nil, List.Sorted]
  | cons a t => rw [sortedChunks]; simp [hw]

theorem chunkAligned_iff {w : Nat} (hw : w ≠ 0) (base : Nat) (l : List (Int × Nat)) :
    chunkAligned w base l ↔
      (∀ x ∈ l.take w, base ≤ x.2 ∧ x.2 < base + w) ∧
        chunkAligned w (base + w) (l.drop w) := by
  cases l with
  | nil => simp [chunkAligned_nil]
  | cons a t => rw [chunkAligned]; simp [hw]

/-- The merged chunk of one run equals, up to permutation, the run it was
merged from. -/
theorem mergeRuns_chunk_perm (isAscend : Bool) (w : Nat) (l : List (Int × Nat)) :
    (mergeRuns isAscend (l.take (w / 2)) ((l.take w).drop (w / 2))).Perm (l.take w) := by
  have e1 : l.take (w / 2) = (l.take w).take (w / 2) := by
    rw [List.take_take, min_eq_left (Nat.div_le_self w 2)]
  refine (mergeRuns_perm isAscend _ _).trans ?_
  rw [e1, List.take_append_drop]

theorem mergeChunks_perm (isAscend : Bool) (w : Nat) (l : List (Int × Nat)) :
    (mergeChunks isAscend w l).Perm l := by
  have key : ∀ n (l : List (Int × Nat)), l.length ≤ n → (mergeChunks isAscend w l).Perm l := by
    intro n
    induction n with
    | zero =>
      intro l hl
      have : l = [] := List.length_eq_zero.mp (Nat.le_zero.mp hl)
      subst this
      rw [mergeChunks]; simp
    | succ n ih =>
      intro l hl
      rw [mergeChunks]
      split
      · exact List.Perm.refl l
      next h =>
        simp only [not_or] at h
        have hlen : (l.drop w).length ≤ n := by
          have h1 : l.length ≠ 0 := by simpa [List.length_eq_zero] using h.2
          have h2 : w ≠ 0 := h.1
          simp only [List.length_drop]
          omega
        have := (mergeRuns_chunk_perm isAscend w l).append (ih (l.drop w) hlen)
        simpa [List.take_append_drop] using this
  exact key l.length l le_rfl

theorem mergeChunks_length (isAscend : Bool) (w : Nat) (l : List (Int × Nat)) :
    (mergeChunks isAscend w l).length = l.length :=
  (mergeChunks_perm isAscend w l).length_eq

theorem take_two_mul (h : Nat) (l : List (Int × Nat)) :
    l.take (2 * h) = l.take h ++ (l.drop h).take h := by
  rw [two_mul, List.take_add]

theorem drop_half_take (h : Nat) (l : List (Int × Nat)) :
    (l.take (2 * h)).drop h = (l.drop h).take h := by
  have e : 2 * h - h = h := by omega
  rw [List.drop_take, e]

theorem mergeChunks_nil (isAscend : Bool) (w : Nat) : mergeChunks isAscend w [] = [] := by
  rw [mergeChunks]; simp

/-- Unfolding of one merge round at even width `2*h`: the first run of
`2*h` slots is merged from its two `h`-halves, the rest recursively. -/
theorem mergeChunks_cons (isAscend : Bool) {h : Nat} (hh : 0 < h) {l : List (Int × Nat)}
    (hl : l ≠ []) :
    mergeChunks isAscend (2 * h) l =
      mergeRuns isAscend (l.take h) ((l.drop h).take h) ++
        mergeChunks isAscend (2 * h) (l.drop (2 * h)) := by
  have e : 2 * h / 2 = h := by omega
  rw [mergeChunks, dif_neg (by simp [hl]; omega), e, drop_half_take]

/-- One merge round keeps every chunk's pairs inside the chunk's own
original index window, now at doubled width. -/
theorem mergeChunks_aligned (isAscend : Bool) {h : Nat} (hh : 0 < h) :
    ∀ (l : List (Int × Nat)) (base : Nat), chunkAligned h base l →
      chunkAligned (2 * h) base (mergeChunks isAscend (2 * h) l) := by
  have key : ∀ n (l : List (Int × Nat)) (base : Nat), l.length ≤ n →
      chunkAligned h base l →
      chunkAligned (2 * h) base (mergeChunks isAscend (2 * h) l) := by
    intro n
    induction n with
    | zero =>
      intro l base hl _
      have : l = [] := List.length_eq_zero.mp (Nat.le_zero.mp hl)
      subst this
      rw [mergeChunks_nil]
      exact chunkAligned_nil _ _
    | succ n ih =>
      intro l base hl hal
      by_cases hnil : l = []
      · subst hnil; rw [mergeChunks_nil]; exact chunkAligned_nil _ _
      rw [mergeChunks_cons isAscend hh hnil]
      have hne : h ≠ 0 := hh.ne'
      have h2 : 2 * h ≠ 0 := by omega
      obtain ⟨hA1, hA2⟩ := (chunkAligned_iff hne base l).mp hal
      obtain ⟨hB1, hB2⟩ := (chunkAligned_iff hne (base + h) (l.drop h)).mp hA2
      set c := mergeRuns isAscend (l.take h) ((l.drop h).take h) with hc
      have hcperm : c.Perm (l.take (2 * h)) := by
        rw [take_two_mul]
        exact mergeRuns_perm isAscend _ _
      have hclen : c.length = min (2 * h) l.length := by
        rw [hcperm.length_eq, List.length_take]
      have hmem : ∀ x ∈ c, base ≤ x.2 ∧ x.2 < base + 2 * h := by
        intro x hx
        have hx' : x ∈ l.take (2 * h) := hcperm.subset hx
        rw [take_two_mul] at hx'
        rcases List.mem_append.mp hx' with hx' | hx'
        · have := hA1 x hx'; omega
        · have := hB1 x hx'; omega
      refine (chunkAligned_iff h2 base _).mpr ⟨?_, ?_⟩
      · intro x hx
        rcases le_or_lt l.length (2 * h) with hcase | hcase
        · have hdrop0 : l.drop (2 * h) = [] := List.drop_eq_nil_of_le hcase
          rw [hdrop0, mergeChunks_nil, List.append_nil] at hx
          exact hmem x (List.take_subset _ _ hx)
        · have hclen2 : c.length = 2 * h := by rw [hclen]; omega
          rw [List.take_left' hclen2] at hx
          exact hmem x hx
      · rcases le_or_lt l.length (2 * h) with hcase | hcase
        · have hdrop0 : l.drop (2 * h) = [] := List.drop_eq_nil_of_le hcase
          have : (c ++ mergeChunks isAscend (2 * h) (l.drop (2 * h))).drop (2 * h) = [] := by
            apply List.drop_eq_nil_of_le
            rw [hdrop0, mergeChunks_nil, List.append_nil, hclen]
            omega
          rw [this]
          exact chunkAligned_nil _ _
        · have hclen2 : c.length = 2 * h := by rw [hclen]; omega
          rw [List.drop_left' hclen2]
          have hrec : chunkAligned h (base + 2 * h) (l.drop (2 * h)) := by
            have e1 : (l.drop h).drop h = l.drop (2 * h) := by
              rw [List.drop_drop]; congr 1; omega
            have e2 : base + h + h = base + 2 * h := by omega
            rw [← e1, ← e2]
            exact hB2
          apply ih (l.drop (2 * h)) (base + 2 * h) _ hrec
          simp only [List.length_drop]
          have : l.length ≠ 0 := by simpa [List.length_eq_zero] using hnil
          omega
  intro l base hal
  exact key l.length l base le_rfl hal

/-- One merge round doubles the width at which all chunks are sorted. -/
theorem mergeChunks_sorted (isAscend : Bool) {h : Nat} (hh : 0 < h) :
    ∀ (l : List (Int × Nat)) (base : Nat), sortedChunks isAscend h l →
      chunkAligned h base l →
      sortedChunks isAscend (2 * h) (mergeChunks isAscend (2 * h) l) := by
  have key : ∀ n (l : List (Int × Nat)) (base : Nat), l.length ≤ n →
      sortedChunks isAscend h l → chunkAligned h base l →
      sortedChunks isAscend (2 * h) (mergeChunks isAscend (2 * h) l) := by
    intro n
    induction n with
    | zero =>
      intro l base hl _ _
      have : l = [] := List.length_eq_zero.mp (Nat.le_zero.mp hl)
      subst this
      rw [mergeChunks_nil]
      exact sortedChunks_nil _ _
    | succ n ih =>
      intro l base hl hsc hal
      by_cases hnil : l = []
      · subst hnil; rw [mergeChunks_nil]; exact sortedChunks_nil _ _
      rw [mergeChunks_cons isAscend hh hnil]
      have hne : h ≠ 0 := hh.ne'
      have h2 : 2 * h ≠ 0 := by omega
      obtain ⟨hA1, hA2⟩ := (chunkAligned_iff hne base l).mp hal
      obtain ⟨hB1, hB2⟩ := (chunkAligned_iff hne (base + h) (l.drop h)).mp hA2
      obtain ⟨hS1, hS2⟩ := (sortedChunks_iff isAscend hne l).mp hsc
      obtain ⟨hT1, _⟩ := (sortedChunks_iff isAscend hne (l.drop h)).mp hS2
      set c := mergeRuns isAscend (l.take h) ((l.drop h).take h) with hc
      have hcsorted : List.Sorted (lexLe isAscend) c := by
        apply mergeRuns_sorted isAscend _ _ hS1 hT1
        intro a ha b hb
        have h1 := (hA1 a ha).2
        have h1b := (hB1 b hb).1
        omega
      have hcperm : c.Perm (l.take (2 * h)) := by
        rw [take_two_mul]
        exact mergeRuns_perm isAscend _ _
      have hclen : c.length = min (2 * h) l.length := by
        rw [hcperm.length_eq, List.length_take]
      refine (sortedChunks_iff isAscend h2 _).mpr ⟨?_, ?_⟩
      · rcases le_or_lt l.length (2 * h) with hcase | hcase
        · have hdrop0 : l.drop (2 * h) = [] := List.drop_eq_nil_of_le hcase
          rw [hdrop0, mergeChunks_nil, List.append_nil,
            List.take_of_length_le (by rw [hclen]; omega)]
          exact hcsorted
        · have hclen2 : c.length = 2 * h := by rw [hclen]; omega
          rw [List.take_left' hclen2]
          exact hcsorted
      · rcases le_or_lt l.length (2 * h) with hcase | hcase
        · have hdrop0 : l.drop (2 * h) = [] := List.drop_eq_nil_of_le hcase
          have : (c ++ mergeChunks isAscend (2 * h) (l.drop (2 * h))).drop (2 * h) = [] := by
            apply List.drop_eq_nil_of_le
            rw [hdrop0, mergeChunks_nil, List.append_nil, hclen]
            omega
          rw [this]
          exact sortedChunks_nil _ _
        · have hclen2 : c.length = 2 * h := by rw [hclen]; omega
          rw [List.drop_left' hclen2]
          have hrecS : sortedChunks isAscend h (l.drop (2 * h)) := by
            have e1 : (l.drop h).drop h = l.drop (2 * h) := by
              rw [List.drop_drop]; congr 1; omega
            rw [← e1]
            exact ((sortedChunks_iff isAscend hne (l.drop h)).mp hS2).2
          have hrecA : chunkAligned h (base + 2 * h) (l.drop (2 * h)) := by
            have e1 : (l.drop h).drop h = l.drop (2 * h) := by
              rw [List.drop_drop]; congr 1; omega
            have e2 : base + h + h = base + 2 * h := by omega
            rw [← e1, ← e2]
            exact hB2
          apply ih (l.drop (2 * h)) (base + 2 * h) _ hrecS hrecA
          simp only [List.length_drop]
          have : l.length ≠ 0 := by simpa [List.length_eq_zero] using hnil
          omega
  intro l base hsc hal
  exact key l.length l base le_rfl hsc hal

theorem seedPairs_length (data : List Int) : (seedPairs data).length = data.length := by
  simp [seedPairs]

theorem seedPairs_getElem (data : List Int) (i : Nat) (hi : i < (seedPairs data).length) :
    (seedPairs data)[i] = (data.get ⟨i, by simpa [seedPairs_length] using hi⟩, i) := by
  simp [seedPairs, List.getElem_zip, List.getElem_range]

theorem sortedChunks_one (isAscend : Bool) (l : List (Int × Nat)) :
    sortedChunks isAscend 1 l := by
  have key : ∀ n (l : List (Int × Nat)), l.length ≤ n → sortedChunks isAscend 1 l := by
    intro n
    induction n with
    | zero =>
      intro l hl
      have : l = [] := List.length_eq_zero.mp (Nat.le_zero.mp hl)
      subst this; exact sortedChunks_nil _ _
    | succ n ih =>
      intro l hl
      cases l with
      | nil => exact sortedChunks_nil _ _
      | cons a t =>
        refine (sortedChunks_iff isAscend one_ne_zero _).mpr ⟨?_, ?_⟩
        · exact List.sorted_singleton a
        · exact ih t (by simpa using hl)
  exact key l.length l le_rfl

theorem chunkAligned_one :
    ∀ (l : List (Int × Nat)) (base : Nat),
      (∀ i (hi : i < l.length), l[i].2 = base + i) → chunkAligned 1 base l := by
  have key : ∀ n (l : List (Int × Nat)) (base : Nat), l.length ≤ n →
      (∀ i (hi : i < l.length), l[i].2 = base + i) → chunkAligned 1 base l := by
    intro n
    induction n with
    | zero =>
      intro l base hl _
      have : l = [] := List.length_eq_zero.mp (Nat.le_zero.mp hl)
      subst this; exact chunkAligned_nil _ _
    | succ n ih =>
      intro l base hl hidx
      cases l with
      | nil => exact chunkAligned_nil _ _
      | cons a t =>
        refine (chunkAligned_iff one_ne_zero _ _).mpr ⟨?_, ?_⟩
        · intro x hx
          have hx' : x ∈ [a] := hx
          rw [List.mem_singleton] at hx'
          subst hx'
          have := hidx 0 (by simp)
          simp at this
          omega
        · refine ih t (base + 1) (by simpa using hl) ?_
          intro i hi
          have := hidx (i + 1) (by simpa using hi)
          simpa [Nat.add_assoc, Nat.add_comm 1 i] using this
  intro l base hidx
  exact key l.length l base le_rfl hidx

/-- Partial straight-line round loop: state after the first `r` merge
rounds, with no ping-pong bookkeeping. -/
def straightAt (isAscend : Bool) (data : List Int) (r : Nat) : List (Int × Nat) :=
  (List.range r).foldl (fun l i => mergeChunks isAscend (2 ^ (i + 1)) l) (seedPairs data)

theorem straightAt_zero (isAscend : Bool) (data : List Int) :
    straightAt isAscend data 0 = seedPairs data := rfl

theorem straightAt_succ (isAscend : Bool) (data : List Int) (r : Nat) :
    straightAt isAscend data (r + 1) =
      mergeChunks isAscend (2 ^ (r + 1)) (straightAt isAscend data r) := by
  rw [straightAt, straightAt, List.range_succ, List.foldl_append]
  simp

theorem straightSort_eq_at (isAscend : Bool) (data : List Int) :
    straightSort isAscend data = straightAt isAscend data (numRounds data.length) := rfl

/-- After `r` rounds the straight-line state is a permutation of the seed,
is sorted in chunks of `2^r`, and each chunk holds its own index window. -/
theorem straightAt_invariant (isAscend : Bool) (data : List Int) (r : Nat) :
    (straightAt isAscend data r).Perm (seedPairs data) ∧
      sortedChunks isAscend (2 ^ r) (straightAt isAscend data r) ∧
      chunkAligned (2 ^ r) 0 (straightAt isAscend data r) := by
  induction r with
  | zero =>
    refine ⟨List.Perm.refl _, by simpa using sortedChunks_one isAscend _, ?_⟩
    simp only [straightAt_zero, pow_zero]
    exact chunkAligned_one _ 0 (fun i hi => by
      rw [seedPairs_getElem]; simp)
  | succ r ih =>
    obtain ⟨hp, hs, ha⟩ := ih
    have hpos : 0 < 2 ^ r := Nat.pos_pow_of_pos r (by norm_num)
    have e : 2 ^ (r + 1) = 2 * 2 ^ r := by rw [pow_succ, Nat.mul_comm]
    rw [straightAt_succ, e]
    refine ⟨(mergeChunks_perm _ _ _).trans hp, ?_, ?_⟩
    · exact mergeChunks_sorted isAscend hpos _ 0 hs ha
    · exact mergeChunks_aligned isAscend hpos _ 0 ha

theorem sorted_of_sortedChunks (isAscend : Bool) {w : Nat} (hw : w ≠ 0)
    {l : List (Int × Nat)} (hlen : l.length ≤ w) (h : sortedChunks isAscend w l) :
    List.Sorted (lexLe isAscend) l := by
  cases l with
  | nil => exact List.sorted_nil
  | cons a t =>
    have := ((sortedChunks_iff isAscend hw _).mp h).1
    rwa [List.take_of_length_le hlen] at this

theorem straightSort_sorted (isAscend : Bool) (data : List Int) :
    List.Sorted (lexLe isAscend) (straightSort isAscend data) := by
  obtain ⟨hp, hs, _⟩ := straightAt_invariant isAscend data (numRounds data.length)
  have hlen : (straightAt isAscend data (numRounds data.length)).length = data.length :=
    hp.length_eq.trans (seedPairs_length data)
  have hn : data.length ≤ 2 ^ numRounds data.length := by
    rw [numRounds_eq_clog]
    exact Nat.le_pow_clog one_lt_two data.length
  rw [straightSort_eq_at]
  exact sorted_of_sortedChunks isAscend (Nat.pos_pow_of_pos _ (by norm_num)).ne'
    (by omega) hs

theorem straightSort_perm (isAscend : Bool) (data : List Int) :
    (straightSort isAscend data).Perm (seedPairs data) :=
  (straightAt_invariant isAscend data (numRounds data.length)).1

/-- The ping-pong fold in terms of the straight-line fold: buffer roles are
a pure function of the parity of the number of rounds performed. -/
theorem pingPong_fold_eq (isAscend : Bool) (data : List Int) :
    ∀ r, (List.range r).foldl (roundStep isAscend) ⟨seedPairs data, []⟩ =
      if r = 0 then ⟨seedPairs data, []⟩
      else if r % 2 = 0 then ⟨straightAt isAscend data r, straightAt isAscend data (r - 1)⟩
      else ⟨straightAt isAscend data (r - 1), straightAt isAscend data r⟩ := by
  intro r
  induction r with
  | zero => simp
  | succ r ih =>
    rw [List.range_succ, List.foldl_append, ih]
    simp only [List.foldl_cons, List.foldl_nil]
    by_cases hr0 : r = 0
    · subst hr0
      simp [roundStep, straightAt_succ, straightAt_zero]
    · rcases Nat.even_or_odd r with he | ho
      · have hmod : r % 2 = 0 := Nat.even_iff.mp he
        have hmod1 : (r + 1) % 2 = 1 := by omega
        simp only [if_neg hr0, if_pos hmod, roundStep, if_pos hmod,
          if_neg (Nat.succ_ne_zero r), hmod1, if_neg one_ne_zero]
        simp [straightAt_succ]
      · have hmod : r % 2 = 1 := Nat.odd_iff.mp ho
        have hmod0 : (r + 1) % 2 = 0 := by omega
        simp only [if_neg hr0, if_neg (by omega : ¬r % 2 = 0), roundStep,
          if_neg (by omega : ¬r % 2 = 0), if_neg (Nat.succ_ne_zero r), if_pos hmod0]
        simp [straightAt_succ]

/-- Modelled from the spec: stable insertion of one element into an
already-sorted prefix, used to build the reference stable sort that the
spec compares `sort_ir` against.  A later element `x` is placed after every
earlier element `y` whose value satisfies the comparator `y ≤ x`
(ties keep the earlier element first). -/
def insertSpec (isAscend : Bool) (x : Int × Nat) : List (Int × Nat) → List (Int × Nat)
  | [] => [x]
  | y :: ys => if cmpLe isAscend y.1 x.1 then y :: insertSpec isAscend x ys else x :: y :: ys

/-- Modelled from the spec: the reference stable sort ("a reference stable
sort with left-run tie precedence"), as stable insertion sort processing
the sequence left to right. -/
def stableSortSpec (isAscend : Bool) (l : List (Int × Nat)) : List (Int × Nat) :=
  l.foldl (fun acc x => insertSpec isAscend x acc) []

theorem insertSpec_perm (isAscend : Bool) (x : Int × Nat) :
    ∀ l, (insertSpec isAscend x l).Perm (x :: l)
  | [] => by simp [insertSpec]
  | y :: ys => by
    rw [insertSpec]
    split
    · exact ((insertSpec_perm isAscend x ys).cons y).trans (List.Perm.swap x y ys)
    · exact List.Perm.refl _

theorem insertSpec_sorted (isAscend : Bool) (x : Int × Nat) :
    ∀ l, List.Sorted (lexLe isAscend) l → (∀ y ∈ l, y.2 < x.2) →
      List.Sorted (lexLe isAscend) (insertSpec isAscend x l)
  | [], _, _ => List.sorted_singleton x
  | y :: ys, hs, hidx => by
    rw [insertSpec]
    rcases List.sorted_cons.mp hs with ⟨hy, hys⟩
    split
    next hcmp =>
      refine List.sorted_cons.mpr ⟨?_, ?_⟩
      · intro z hz
        have hz' := (insertSpec_perm isAscend x ys).mem_iff.mp hz
        rcases List.mem_cons.mp hz' with rfl | hz'
        · exact lexLe_of_cmp isAscend hcmp (le_of_lt (hidx y (List.mem_cons_self y ys)))
        · exact hy z hz'
      · exact insertSpec_sorted isAscend x ys hys
          (fun z hz => hidx z (List.mem_cons_of_mem y hz))
    next hcmp =>
      refine List.sorted_cons.mpr ⟨?_, hs⟩
      intro z hz
      have hxy : lexLe isAscend x y := lexLe_of_not_cmp isAscend (Bool.of_not_eq_true hcmp)
      rcases List.mem_cons.mp hz with rfl | hz'
      · exact hxy
      · exact IsTrans.trans _ _ _ hxy (hy z hz')

theorem stableSortSpec_aux (isAscend : Bool) :
    ∀ (l acc : List (Int × Nat)), List.Sorted (lexLe isAscend) acc →
      (∀ x ∈ l, ∀ y ∈ acc, y.2 < x.2) →
      List.Pairwise (fun a b : Int × Nat => a.2 < b.2) l →
      List.Sorted (lexLe isAscend) (l.foldl (fun acc x => insertSpec isAscend x acc) acc) ∧
        (l.foldl (fun acc x => insertSpec isAscend x acc) acc).Perm (acc ++ l)
  | [], acc, hs, _, _ => ⟨hs, by simp⟩
  | x :: t, acc, hs, hsep, hpw => by
    simp only [List.foldl_cons]
    rcases List.pairwise_cons.mp hpw with ⟨hx, hpw'⟩
    have h1 : List.Sorted (lexLe isAscend) (insertSpec isAscend x acc) :=
      insertSpec_sorted isAscend x acc hs (hsep x (List.mem_cons_self x t))
    have h2 : ∀ z ∈ t, ∀ y ∈ insertSpec isAscend x acc, y.2 < z.2 := by
      intro z hz y hy
      have hy' := (insertSpec_perm isAscend x acc).mem_iff.mp hy
      rcases List.mem_cons.mp hy' with rfl | hy'
      · exact hx z hz
      · exact hsep z (List.mem_cons_of_mem x hz) y hy'
    obtain ⟨hs', hp'⟩ := stableSortSpec_aux isAscend t (insertSpec isAscend x acc) h1 h2 hpw'
    refine ⟨hs', hp'.trans ?_⟩
    exact ((insertSpec_perm isAscend x acc).append_right t).trans List.perm_middle.symm

theorem seedPairs_pairwise (data : List Int) :
    List.Pairwise (fun a b : Int × Nat => a.2 < b.2) (seedPairs data) := by
  rw [List.pairwise_iff_get]
  intro i j hij
  simp only [List.get_eq_getElem, seedPairs_getElem]
  exact hij

theorem stableSortSpec_sorted (isAscend : Bool) (data : List Int) :
    List.Sorted (lexLe isAscend) (stableSortSpec isAscend (seedPairs data)) :=
  (stableSortSpec_aux isAscend (seedPairs data) [] List.sorted_nil (by simp)
    (seedPairs_pairwise data)).1

theorem stableSortSpec_perm (isAscend : Bool) (data : List Int) :
    (stableSortSpec isAscend (seedPairs data)).Perm (seedPairs data) := by
  have := (stableSortSpec_aux isAscend (seedPairs data) [] List.sorted_nil (by simp)
    (seedPairs_pairwise data)).2
  simpa using this

/-- The ping-pong buffer discipline and final writeback of `sort_ir` are
together equivalent to running the rounds on a single logical buffer. -/
theorem sortIrOut_eq_straight (isAscend : Bool) (data : List Int) :
    sortIrOut isAscend data = straightSort isAscend data := by
  rw [sortIrOut, sortIrRun, pingPong_fold_eq, straightSort_eq_at]
  by_cases hr0 : numRounds data.length = 0
  · rw [hr0]
    simp [straightAt_zero]
  · rcases Nat.even_or_odd (numRounds data.length) with he | ho
    · have hmod : numRounds data.length % 2 = 0 := Nat.even_iff.mp he
      rw [if_neg (by omega : ¬numRounds data.length % 2 = 1), if_neg hr0, if_pos hmod]
    · have hmod : numRounds data.length % 2 = 1 := Nat.odd_iff.mp ho
      rw [if_pos hmod, if_neg hr0, if_neg (by omega : ¬numRounds data.length % 2 = 0)]

/-- The merge-sort engine computes exactly the reference stable sort. -/
theorem sortIrOut_eq_stableSort (isAscend : Bool) (data : List Int) :
    sortIrOut isAscend data = stableSortSpec isAscend (seedPairs data) := by
  rw [sortIrOut_eq_straight]
  exact List.eq_of_perm_of_sorted
    ((straightSort_perm isAscend data).trans (stableSortSpec_perm isAscend data).symm)
    (straightSort_sorted isAscend data) (stableSortSpec_sorted isAscend data)

theorem seedPairs_map_fst (data : List Int) : (seedPairs data).map Prod.fst = data := by
  apply List.ext_getElem
  · simp [seedPairs_length]
  · intro i h1 h2
    simp only [List.getElem_map, seedPairs_getElem, List.get_eq_getElem]

theorem seedPairs_map_snd (data : List Int) :
    (seedPairs data).map Prod.snd = List.range data.length := by
  apply List.ext_getElem
  · simp [seedPairs_length]
  · intro i h1 h2
    simp only [List.getElem_map, seedPairs_getElem, List.getElem_range]

theorem sortIrOut_perm_seed (isAscend : Bool) (data : List Int) :
    (sortIrOut isAscend data).Perm (seedPairs data) := by
  rw [sortIrOut_eq_straight]
  exact straightSort_perm isAscend data

theorem sortIrOut_length (isAscend : Bool) (data : List Int) :
    (sortIrOut isAscend data).length = data.length :=
  (sortIrOut_perm_seed isAscend data).length_eq.trans (seedPairs_length data)

/-- Every pair that the merge engine outputs is an original
`(value, position)` pair of the input. -/
theorem sortIrOut_mem (isAscend : Bool) (data : List Int) {p : Int × Nat}
    (hp : p ∈ sortIrOut isAscend data) :
    ∃ h : p.2 < data.length, data[p.2] = p.1 := by
  have hp' : p ∈ seedPairs data := (sortIrOut_perm_seed isAscend data).subset hp
  obtain ⟨i, hi⟩ := List.mem_iff_get.mp hp'
  rw [List.get_eq_getElem, seedPairs_getElem data i.1 i.2] at hi
  obtain ⟨v, k⟩ := p
  injection hi with h1 h2
  subst h1
  subst h2
  refine ⟨?_, rfl⟩
  have hi2 := i.2
  have hlen := seedPairs_length data
  show (i : Nat) < data.length
  omega

/-- The sorted-direction predicate on a plain value sequence, phrased with
the engine's own comparator. -/
def dirSorted (isAscend : Bool) (l : List Int) : Prop :=
  List.Sorted (fun a b => cmpLe isAscend a b = true) l

theorem seedPairs_sorted_of_dirSorted (isAscend : Bool) (data : List Int)
    (h : dirSorted isAscend data) : List.Sorted (lexLe isAscend) (seedPairs data) := by
  refine List.pairwise_iff_get.mpr ?_
  intro i j hij
  rw [List.get_eq_getElem, List.get_eq_getElem, seedPairs_getElem data i.1 i.2,
    seedPairs_getElem data j.1 j.2]
  have hlen : (seedPairs data).length = data.length := seedPairs_length data
  have hi := i.2
  have hj := j.2
  have hdir := List.pairwise_iff_get.mp h ⟨i.1, by omega⟩ ⟨j.1, by omega⟩ hij
  simp only [List.get_eq_getElem] at hdir
  exact lexLe_of_cmp isAscend hdir (le_of_lt hij)

theorem sortIrOut_sorted (isAscend : Bool) (data : List Int) :
    List.Sorted (lexLe isAscend) (sortIrOut isAscend data) := by
  rw [sortIrOut_eq_straight]
  exact straightSort_sorted isAscend data

/-- On an already direction-sorted input, the merge engine is the
identity on pairs. -/
theorem sortIrOut_of_dirSorted (isAscend : Bool) (data : List Int)
    (h : dirSorted isAscend data) : sortIrOut isAscend data = seedPairs data :=
  List.eq_of_perm_of_sorted (sortIrOut_perm_seed isAscend data)
    (sortIrOut_sorted isAscend data) (seedPairs_sorted_of_dirSorted isAscend data h)

/-! ## The segmented odd-even transposition engine (`sort_nms_ir`) -/

/-- Swap condition of `sort_nms_ir`: ascending order swaps when
`data[offset] > data[offset + stride]`, descending when
`data[offset] < data[offset + stride]` (the two `if_scope` blocks guarded
by `is_ascend == 1` / `is_ascend == 0`). -/
def nmsSwap (isAscend : Bool) (a b : Int) : Bool :=
  if isAscend then decide (b < a) else decide (a < b)

/-- One parallel compare-and-swap sweep: thread `tid` handles the adjacent
slot pair starting at `2*tid + k%2`, and a pair `(p, p+1)` is compared and
swapped only under the guard `p + 1 < valid_count`.  The threads of one
pass touch pairwise disjoint slot pairs, so the pass equals this sweep that
peels two slots at a time starting at absolute position `pos`. -/
def cswapSweep {α : Type} (gt : α → α → Bool) (vc : Nat) : Nat → List α → List α
  | _, [] => []
  | _, [x] => [x]
  | pos, x :: y :: t =>
    if pos + 1 < vc ∧ gt x y then y :: x :: cswapSweep gt vc (pos + 2) t
    else x :: y :: cswapSweep gt vc (pos + 2) t

/-- Pass `k` of the odd-even transposition loop of `sort_nms_ir`: the pairs
of pass `k` start at offset `k % 2` (`offset = base_idx + (2 * tid +
idxm(k, 2)) * axis_mul_after`). -/
def oddEvenPass {α : Type} (gt : α → α → Bool) (vc k : Nat) (l : List α) : List α :=
  if k % 2 = 0 then cswapSweep gt vc 0 l
  else
    match l with
    | [] => []
    | x :: t => x :: cswapSweep gt vc 1 t

/-- The swap condition lifted to `(value, index)` pairs: `sort_nms_ir`
compares values and moves the `output` index entries together with the
`data` entries. -/
def nmsSwapP (isAscend : Bool) (a b : Int × Nat) : Bool := nmsSwap isAscend a.1 b.1

/-- The segmented engine `sort_nms_ir` on one segment: the index buffer is
seeded with the identity (`output[base_idx + tid * axis_mul_after] = tid`),
then `current_sort_num = valid_count[segment]` odd-even transposition
passes run over the value/index pair, sorting the value buffer in place. -/
def sortNms (isAscend : Bool) (vc : Nat) (data : List Int) : List (Int × Nat) :=
  (List.range vc).foldl (fun st k => oddEvenPass (nmsSwapP isAscend) vc k st)
    (seedPairs data)

/-- The value buffer after `sort_nms_ir` (the in-place sorted `data`). -/
def sortNmsValues (isAscend : Bool) (vc : Nat) (data : List Int) : List Int :=
  (sortNms isAscend vc data).map Prod.fst

/-- The index buffer after `sort_nms_ir` (the `output` buffer). -/
def sortNmsIndices (isAscend : Bool) (vc : Nat) (data : List Int) : List Nat :=
  (sortNms isAscend vc data).map Prod.snd

theorem oddEvenPass_nil {α : Type} (gt : α → α → Bool) (vc k : Nat) :
    oddEvenPass gt vc k ([] : List α) = [] := by
  unfold oddEvenPass
  split <;> rfl

theorem oddEvenPass_even {α : Type} (gt : α → α → Bool) (vc : Nat) {k : Nat}
    (hk : k % 2 = 0) (l : List α) : oddEvenPass gt vc k l = cswapSweep gt vc 0 l := by
  unfold oddEvenPass
  rw [if_pos hk]

theorem oddEvenPass_odd_cons {α : Type} (gt : α → α → Bool) (vc : Nat) {k : Nat}
    (hk : ¬k % 2 = 0) (x : α) (t : List α) :
    oddEvenPass gt vc k (x :: t) = x :: cswapSweep gt vc 1 t := by
  unfold oddEvenPass
  rw [if_neg hk]

theorem cswapSweep_perm {α : Type} (gt : α → α → Bool) (vc : Nat) :
    ∀ (pos : Nat) (l : List α), (cswapSweep gt vc pos l).Perm l
  | _, [] => by rw [cswapSweep]
  | _, [x] => by rw [cswapSweep]
  | pos, x :: y :: t => by
    rw [cswapSweep]
    split
    · exact ((cswapSweep_perm gt vc (pos + 2) t).cons x).cons y |>.trans
        (List.Perm.swap x y t)
    · exact ((cswapSweep_perm gt vc (pos + 2) t).cons y).cons x
  termination_by _ l => l.length

theorem cswapSweep_length {α : Type} (gt : α → α → Bool) (vc pos : Nat) (l : List α) :
    (cswapSweep gt vc pos l).length = l.length :=
  (cswapSweep_perm gt vc pos l).length_eq

theorem oddEvenPass_perm {α : Type} (gt : α → α → Bool) (vc k : Nat) (l : List α) :
    (oddEvenPass gt vc k l).Perm l := by
  by_cases hk : k % 2 = 0
  · rw [oddEvenPass_even gt vc hk l]
    exact cswapSweep_perm gt vc 0 l
  · cases l with
    | nil => rw [oddEvenPass_nil]
    | cons x t =>
      rw [oddEvenPass_odd_cons gt vc hk x t]
      exact (cswapSweep_perm gt vc 1 t).cons x

theorem oddEvenPass_length {α : Type} (gt : α → α → Bool) (vc k : Nat) (l : List α) :
    (oddEvenPass gt vc k l).length = l.length :=
  (oddEvenPass_perm gt vc k l).length_eq

/-- Beyond the `valid_count` guard no compare-and-swap can fire: a sweep
whose starting position is already at or past `vc - 1` is the identity. -/
theorem cswapSweep_noop {α : Type} (gt : α → α → Bool) (vc : Nat) :
    ∀ (pos : Nat) (l : List α), vc ≤ pos + 1 → cswapSweep gt vc pos l = l
  | _, [], _ => by rw [cswapSweep]
  | _, [x], _ => by rw [cswapSweep]
  | pos, x :: y :: t, h => by
    rw [cswapSweep, if_neg (fun hc => absurd hc.1 (by omega))]
    rw [cswapSweep_noop gt vc (pos + 2) t (by omega)]
  termination_by _ l => l.length

/-- A sweep never crosses the `valid_count` boundary: on a list split at
a point at or past `vc`, it acts on the prefix alone. -/
theorem cswapSweep_append {α : Type} (gt : α → α → Bool) (vc : Nat) :
    ∀ (pos : Nat) (l₁ l₂ : List α), vc ≤ pos + l₁.length →
      cswapSweep gt vc pos (l₁ ++ l₂) = cswapSweep gt vc pos l₁ ++ l₂
  | pos, [], l₂, h => by
    simp only [List.length_nil, Nat.add_zero] at h
    rw [List.nil_append, cswapSweep_noop gt vc pos l₂ (by omega)]
    rw [show cswapSweep gt vc pos ([] : List α) = [] from rfl, List.nil_append]
  | pos, [x], l₂, h => by
    simp only [List.length_cons, List.length_nil] at h
    cases l₂ with
    | nil => simp
    | cons y t =>
      show cswapSweep gt vc pos (x :: y :: t) = cswapSweep gt vc pos [x] ++ y :: t
      rw [show cswapSweep gt vc pos [x] = [x] from by rw [cswapSweep]]
      rw [cswapSweep, if_neg (fun hc => absurd hc.1 (by omega))]
      rw [cswapSweep_noop gt vc (pos + 2) t (by omega)]
      rfl
  | pos, x :: y :: t₁, l₂, h => by
    simp only [List.length_cons] at h
    show cswapSweep gt vc pos (x :: y :: (t₁ ++ l₂)) =
      cswapSweep gt vc pos (x :: y :: t₁) ++ l₂
    rw [cswapSweep, cswapSweep]
    have ih := cswapSweep_append gt vc (pos + 2) t₁ l₂ (by omega)
    by_cases hcase : pos + 1 < vc ∧ gt x y = true
    · rw [if_pos hcase, if_pos hcase, ih]
      simp
    · rw [if_neg hcase, if_neg hcase, ih]
      simp
  termination_by _ l₁ _ => l₁.length

theorem oddEvenPass_append {α : Type} (gt : α → α → Bool) (vc k : Nat)
    (l₁ l₂ : List α) (h : l₁.length = vc) :
    oddEvenPass gt vc k (l₁ ++ l₂) = oddEvenPass gt vc k l₁ ++ l₂ := by
  by_cases hk : k % 2 = 0
  · rw [oddEvenPass_even gt vc hk, oddEvenPass_even gt vc hk]
    exact cswapSweep_append gt vc 0 l₁ l₂ (by omega)
  · cases l₁ with
    | nil =>
      cases l₂ with
      | nil => simp
      | cons y t =>
        simp only [List.length_nil] at h
        simp only [List.nil_append, oddEvenPass_nil]
        rw [oddEvenPass_odd_cons gt vc hk y t]
        rw [cswapSweep_noop gt vc 1 t (by omega)]
    | cons x t₁ =>
      simp only [List.length_cons] at h
      simp only [List.cons_append]
      rw [oddEvenPass_odd_cons gt vc hk x (t₁ ++ l₂), oddEvenPass_odd_cons gt vc hk x t₁]
      rw [cswapSweep_append gt vc 1 t₁ l₂ (by omega)]
      simp

/-- A sweep commutes with mapping `f` over the slots whenever `f` can only
merge the two sides of the swap test, never flip it. -/
theorem cswapSweep_map {α β : Type} (f : α → β) (gtA : α → α → Bool) (gtB : β → β → Bool)
    (hcomm : ∀ a b, gtB (f a) (f b) = gtA a b ∨ f a = f b) (vc : Nat) :
    ∀ (pos : Nat) (l : List α),
      (cswapSweep gtA vc pos l).map f = cswapSweep gtB vc pos (l.map f)
  | _, [] => by rw [cswapSweep]; simp [cswapSweep]
  | _, [x] => by rw [cswapSweep]; simp [cswapSweep]
  | pos, x :: y :: t => by
    have ih := cswapSweep_map f gtA gtB hcomm vc (pos + 2) t
    show (cswapSweep gtA vc pos (x :: y :: t)).map f =
      cswapSweep gtB vc pos (f x :: f y :: t.map f)
    rw [cswapSweep, cswapSweep]
    by_cases hguard : pos + 1 < vc
    · rcases hcomm x y with hc | hc
      · by_cases hxy : gtA x y = true
        · rw [if_pos ⟨hguard, hxy⟩, if_pos ⟨hguard, by rw [hc]; exact hxy⟩]
          simp [ih]
        · rw [if_neg (by tauto), if_neg (by rw [hc]; tauto)]
          simp [ih]
      · by_cases hxy : gtA x y = true
        · rw [if_pos ⟨hguard, hxy⟩]
          by_cases hB : gtB (f x) (f y) = true
          · rw [if_pos ⟨hguard, hB⟩]; simp [ih]
          · rw [if_neg (by tauto)]; simp [ih, hc]
        · rw [if_neg (by tauto)]
          by_cases hB : gtB (f x) (f y) = true
          · rw [if_pos ⟨hguard, hB⟩]; simp [ih, hc]
          · rw [if_neg (by tauto)]; simp [ih]
    · rw [if_neg (by tauto), if_neg (by tauto)]
      simp [ih]
  termination_by _ l => l.length

theorem oddEvenPass_map {α β : Type} (f : α → β) (gtA : α → α → Bool) (gtB : β → β → Bool)
    (hcomm : ∀ a b, gtB (f a) (f b) = gtA a b ∨ f a = f b) (vc k : Nat) (l : List α) :
    (oddEvenPass gtA vc k l).map f = oddEvenPass gtB vc k (l.map f) := by
  by_cases hk : k % 2 = 0
  · rw [oddEvenPass_even gtA vc hk, oddEvenPass_even gtB vc hk]
    exact cswapSweep_map f gtA gtB hcomm vc 0 l
  · cases l with
    | nil => simp [oddEvenPass_nil]
    | cons x t =>
      simp only [List.map_cons]
      rw [oddEvenPass_odd_cons gtA vc hk x t, oddEvenPass_odd_cons gtB vc hk (f x) (t.map f)]
      simp only [List.map_cons]
      rw [cswapSweep_map f gtA gtB hcomm vc 1 t]

/-- Whole-loop form of the prefix confinement: all `valid_count` passes act
on the first `valid_count` slots alone, the suffix rides along untouched. -/
theorem foldPasses_append {α : Type} (gt : α → α → Bool) (vc : Nat) (ks : List Nat) :
    ∀ (l₁ l₂ : List α), l₁.length = vc →
      ks.foldl (fun st k => oddEvenPass gt vc k st) (l₁ ++ l₂) =
        ks.foldl (fun st k => oddEvenPass gt vc k st) l₁ ++ l₂ := by
  induction ks with
  | nil => intro l₁ l₂ _; rfl
  | cons k ks ih =>
    intro l₁ l₂ h
    simp only [List.foldl_cons]
    rw [oddEvenPass_append gt vc k l₁ l₂ h]
    exact ih (oddEvenPass gt vc k l₁) l₂ ((oddEvenPass_length gt vc k l₁).trans h)

theorem foldPasses_length {α : Type} (gt : α → α → Bool) (vc : Nat) (ks : List Nat) :
    ∀ (l : List α), (ks.foldl (fun st k => oddEvenPass gt vc k st) l).length = l.length := by
  induction ks with
  | nil => intro l; rfl
  | cons k ks ih =>
    intro l
    simp only [List.foldl_cons]
    rw [ih, oddEvenPass_length]

theorem foldPasses_perm {α : Type} (gt : α → α → Bool) (vc : Nat) (ks : List Nat) :
    ∀ (l : List α), (ks.foldl (fun st k => oddEvenPass gt vc k st) l).Perm l := by
  induction ks with
  | nil => intro l; exact List.Perm.refl l
  | cons k ks ih =>
    intro l
    simp only [List.foldl_cons]
    exact (ih (oddEvenPass gt vc k l)).trans (oddEvenPass_perm gt vc k l)

/-- The segmented engine splits: the first `valid_count` slots are the
passes run on the seed prefix, the rest is the seed itself. -/
theorem sortNms_decomp (isAscend : Bool) (vc : Nat) (data : List Int)
    (hvc : vc ≤ data.length) :
    sortNms isAscend vc data =
      (List.range vc).foldl (fun st k => oddEvenPass (nmsSwapP isAscend) vc k st)
          ((seedPairs data).take vc) ++ (seedPairs data).drop vc := by
  rw [sortNms]
  conv_lhs => rw [← List.take_append_drop vc (seedPairs data)]
  exact foldPasses_append (nmsSwapP isAscend) vc (List.range vc) _ _
    (by rw [List.length_take, seedPairs_length]; omega)

/-- Slots at positions `≥ valid_count` keep their seed contents. -/
theorem sortNms_frame (isAscend : Bool) (vc : Nat) (data : List Int)
    (hvc : vc ≤ data.length) (q : Nat) (hq : vc ≤ q) :
    (sortNms isAscend vc data)[q]? = (seedPairs data)[q]? := by
  rw [sortNms_decomp isAscend vc data hvc]
  have hlen : ((List.range vc).foldl (fun st k => oddEvenPass (nmsSwapP isAscend) vc k st)
      ((seedPairs data).take vc)).length = vc := by
    rw [foldPasses_length, List.length_take, seedPairs_length]
    omega
  rw [List.getElem?_append_right (by omega), hlen, List.getElem?_drop]
  congr 1
  omega

/-- A sweep over a stretch on which the swap test never fires is the
identity. -/
theorem cswapSweep_of_chain {α : Type} (gt : α → α → Bool) (vc : Nat) :
    ∀ (pos : Nat) (l : List α),
      (l.take (vc - pos)).Chain' (fun a b => gt a b = false) →
      cswapSweep gt vc pos l = l
  | _, [], _ => by rw [cswapSweep]
  | _, [x], _ => by rw [cswapSweep]
  | pos, x :: y :: t, hch => by
    rw [cswapSweep]
    by_cases hguard : pos + 1 < vc
    · have h2 : 2 ≤ vc - pos := by omega
      have hch' : (x :: y :: t.take (vc - pos - 2)).Chain' (fun a b => gt a b = false) := by
        have e : vc - pos = (vc - pos - 2) + 1 + 1 := by omega
        rw [e] at hch
        simpa using hch
      rcases List.chain'_cons.mp hch' with ⟨hxy, hch''⟩
      rw [if_neg (by simp [hxy])]
      congr 1
      congr 1
      apply cswapSweep_of_chain gt vc (pos + 2) t
      have e2 : vc - (pos + 2) = vc - pos - 2 := by omega
      rw [e2]
      exact hch''.tail
    · rw [if_neg (fun hc => absurd hc.1 hguard)]
      congr 1
      congr 1
      apply cswapSweep_of_chain gt vc (pos + 2) t
      have e2 : vc - (pos + 2) = 0 := by omega
      rw [e2]
      simp
  termination_by _ l => l.length

/-- A pass over a prefix on which the swap test never fires is the
identity. -/
theorem oddEvenPass_of_chain {α : Type} (gt : α → α → Bool) (vc k : Nat) (l : List α)
    (hch : (l.take vc).Chain' (fun a b => gt a b = false)) :
    oddEvenPass gt vc k l = l := by
  by_cases hk : k % 2 = 0
  · rw [oddEvenPass_even gt vc hk l]
    exact cswapSweep_of_chain gt vc 0 l (by simpa using hch)
  · cases l with
    | nil => rw [oddEvenPass_nil]
    | cons x t =>
      rw [oddEvenPass_odd_cons gt vc hk x t]
      congr 1
      apply cswapSweep_of_chain gt vc 1 t
      cases hvc0 : vc with
      | zero => simp
      | succ m =>
        have : ((x :: t).take (m + 1)).Chain' (fun a b => gt a b = false) := hvc0 ▸ hch
        simp only [List.take_succ_cons] at this
        exact (List.chain'_cons'.mp this).2

/-- On a prefix already sorted for the active direction the whole
transposition loop is the identity. -/
theorem sortNms_of_chain (isAscend : Bool) (vc : Nat) (data : List Int)
    (hch : ((seedPairs data).take vc).Chain'
      (fun a b => nmsSwapP isAscend a b = false)) :
    sortNms isAscend vc data = seedPairs data := by
  rw [sortNms]
  generalize List.range vc = ks
  induction ks with
  | nil => rfl
  | cons k ks ih =>
    simp only [List.foldl_cons]
    rw [oddEvenPass_of_chain (nmsSwapP isAscend) vc k _ hch, ih]

/-! ### 0-1 analysis of the transposition passes

To count how many passes sort a segment, the passes are analysed on 0-1
words (`List Bool`), where the ascending swap test `data[p] > data[p+1]`
becomes `w[p] && !w[p+1]`; the general case follows through threshold
functions, which commute with every compare-and-swap. -/

/-- Ascending swap test on a 0-1 word: a one directly left of a zero. -/
def gtB (a b : Bool) : Bool := a && !b

/-- Positions holding `true`, in increasing order, offset by `i`. -/
def onesFrom (i : Nat) : List Bool → List Nat
  | [] => []
  | b :: t => if b then i :: onesFrom (i + 1) t else onesFrom (i + 1) t

@[simp] theorem onesFrom_nil (i : Nat) : onesFrom i [] = [] := rfl

@[simp] theorem onesFrom_cons_true (i : Nat) (t : List Bool) :
    onesFrom i (true :: t) = i :: onesFrom (i + 1) t := by
  rw [onesFrom]; simp

@[simp] theorem onesFrom_cons_false (i : Nat) (t : List Bool) :
    onesFrom i (false :: t) = onesFrom (i + 1) t := by
  rw [onesFrom]; simp

theorem onesFrom_ge (x : Nat) :
    ∀ (w : List Bool) (i : Nat), x ∈ onesFrom i w → i ≤ x := by
  intro w
  induction w with
  | nil => intro i h; simp at h
  | cons b t ih =>
    intro i h
    cases b with
    | true =>
      rw [onesFrom_cons_true] at h
      rcases List.mem_cons.mp h with rfl | h
      · exact le_rfl
      · exact Nat.le_of_succ_le (ih (i + 1) h)
    | false =>
      rw [onesFrom_cons_false] at h
      exact Nat.le_of_succ_le (ih (i + 1) h)

theorem onesFrom_lt (x : Nat) :
    ∀ (w : List Bool) (i : Nat), x ∈ onesFrom i w → x < i + w.length := by
  intro w
  induction w with
  | nil => intro i h; simp at h
  | cons b t ih =>
    intro i h
    cases b with
    | true =>
      rw [onesFrom_cons_true] at h
      rcases List.mem_cons.mp h with rfl | h
      · simp
      · have := ih (i + 1) h; simp at this ⊢; omega
    | false =>
      rw [onesFrom_cons_false] at h
      have := ih (i + 1) h; simp at this ⊢; omega

theorem onesFrom_chain : ∀ (w : List Bool) (i : Nat), (onesFrom i w).Chain' (· < ·) := by
  intro w
  induction w with
  | nil => intro i; simp
  | cons b t ih =>
    intro i
    cases b with
    | true =>
      rw [onesFrom_cons_true]
      apply List.chain'_cons'.mpr
      refine ⟨?_, ih (i + 1)⟩
      intro y hy
      exact onesFrom_ge y t (i + 1) (List.mem_of_mem_head? hy)
    | false =>
      rw [onesFrom_cons_false]
      exact ih (i + 1)

/-- Membership in the ones list names exactly the `true` slots. -/
theorem mem_onesFrom (x : Nat) :
    ∀ (w : List Bool) (i : Nat),
      x ∈ onesFrom i w ↔ ∃ (j : Nat) (h : j < w.length), w[j] = true ∧ x = i + j := by
  intro w
  induction w with
  | nil => intro i; simp
  | cons b t ih =>
    intro i
    cases b with
    | true =>
      rw [onesFrom_cons_true]
      constructor
      · intro h
        rcases List.mem_cons.mp h with rfl | h
        · exact ⟨0, by simp, by simp⟩
        · obtain ⟨j, hj, hw, hx⟩ := (ih (i + 1)).mp h
          exact ⟨j + 1, by simpa using hj, by simpa using hw, by omega⟩
      · rintro ⟨j, hj, hw, rfl⟩
        cases j with
        | zero => simp
        | succ j =>
          apply List.mem_cons_of_mem
          refine (ih (i + 1)).mpr ⟨j, by simpa using hj, by simpa using hw, by omega⟩
    | false =>
      rw [onesFrom_cons_false]
      rw [ih (i + 1)]
      constructor
      · rintro ⟨j, hj, hw, rfl⟩
        exact ⟨j + 1, by simpa using hj, by simpa using hw, by omega⟩
      · rintro ⟨j, hj, hw, rfl⟩
        cases j with
        | zero => simp at hw
        | succ j => exact ⟨j, by simpa using hj, by simpa using hw, by omega⟩

/-- The position bounding the next rightward particle move: the next one's
position, or the word length at the right end. -/
def nextBound (n : Nat) : List Nat → Nat
  | [] => n
  | q :: _ => q

/-- One transposition pass in particle form: a one at position `p` steps to
`p + 1` exactly when the pass parity matches `p` and slot `p + 1` exists
and holds a zero (i.e. is below the next one's position). -/
def stepPos (t n : Nat) : List Nat → List Nat
  | [] => []
  | p :: rest =>
    (if p % 2 = t % 2 ∧ p + 1 < nextBound n rest then p + 1 else p) :: stepPos t n rest

@[simp] theorem stepPos_nil (t n : Nat) : stepPos t n [] = [] := rfl

theorem stepPos_cons (t n p : Nat) (rest : List Nat) :
    stepPos t n (p :: rest) =
      (if p % 2 = t % 2 ∧ p + 1 < nextBound n rest then p + 1 else p) ::
        stepPos t n rest := rfl

theorem stepPos_length (t n : Nat) : ∀ L, (stepPos t n L).length = L.length := by
  intro L
  induction L with
  | nil => rfl
  | cons p rest ih => rw [stepPos_cons]; simp [ih]

theorem nextBound_ge (n m : Nat) (L : List Nat) (h1 : ∀ x ∈ L, m ≤ x) (h2 : m ≤ n) :
    m ≤ nextBound n L := by
  cases L with
  | nil => exact h2
  | cons q _ => exact h1 q (List.mem_cons_self q _)

/-- Correspondence: the sweep of a pass moves the ones of the word exactly
as the particle step describes. -/
theorem onesFrom_sweep (k n : Nat) :
    ∀ (l : List Bool) (pos : Nat), pos % 2 = k % 2 → pos + l.length = n →
      onesFrom pos (cswapSweep gtB n pos l) = stepPos k n (onesFrom pos l)
  | [], pos, _, _ => by rw [cswapSweep]; simp
  | [x], pos, hpar, hn => by
    rw [cswapSweep]
    simp only [List.length_cons, List.length_nil] at hn
    cases x with
    | true =>
      rw [onesFrom_cons_true, onesFrom_nil, stepPos_cons]
      rw [if_neg (by show ¬(pos % 2 = k % 2 ∧ pos + 1 < nextBound n []); rw [nextBound]; omega)]
      rfl
    | false => simp
  | x :: y :: t, pos, hpar, hn => by
    simp only [List.length_cons] at hn
    have hguard : pos + 1 < n := by omega
    have ih := onesFrom_sweep k n t (pos + 2) (by omega) (by omega)
    have hge : ∀ z ∈ onesFrom (pos + 2) t, pos + 2 ≤ z :=
      fun z hz => onesFrom_ge z t (pos + 2) hz
    have hnb : pos + 2 ≤ nextBound n (onesFrom (pos + 2) t) :=
      nextBound_ge n (pos + 2) _ hge (by omega)
    rw [cswapSweep]
    cases x <;> cases y
    · -- false, false
      rw [if_neg (by simp [gtB])]
      simp only [onesFrom_cons_false]
      exact ih
    · -- false, true
      rw [if_neg (by simp [gtB])]
      simp only [onesFrom_cons_false, onesFrom_cons_true, stepPos_cons,
        show pos + 1 + 1 = pos + 2 from rfl]
      have hpar1 : ¬(pos + 1) % 2 = k % 2 := by omega
      rw [if_neg (fun hc => hpar1 hc.1)]
      rw [ih]
    · -- true, false
      rw [if_pos ⟨hguard, by simp [gtB]⟩]
      simp only [onesFrom_cons_false, onesFrom_cons_true, stepPos_cons,
        show pos + 1 + 1 = pos + 2 from rfl]
      rw [if_pos ⟨hpar, by omega⟩]
      rw [ih]
    · -- true, true
      rw [if_neg (by simp [gtB])]
      simp only [onesFrom_cons_true, stepPos_cons,
        show pos + 1 + 1 = pos + 2 from rfl]
      rw [if_neg (by rw [nextBound]; omega)]
      have hpar1 : ¬(pos + 1) % 2 = k % 2 := by omega
      rw [if_neg (fun hc => hpar1 hc.1)]
      rw [ih]
  termination_by l _ => l.length

/-- Correspondence at the pass level, for a full-word pass
(`valid_count = word length`). -/
theorem onesFrom_pass (k : Nat) (w : List Bool) :
    onesFrom 0 (oddEvenPass gtB w.length k w) = stepPos k w.length (onesFrom 0 w) := by
  by_cases hk : k % 2 = 0
  · rw [oddEvenPass_even gtB w.length hk w]
    exact onesFrom_sweep k w.length w 0 (by omega) (by omega)
  · cases w with
    | nil => rw [oddEvenPass_nil]; simp
    | cons x t =>
      rw [oddEvenPass_odd_cons gtB _ hk x t]
      have ih := onesFrom_sweep k (x :: t).length t 1 (by omega)
        (by rw [List.length_cons]; omega)
      cases x with
      | true =>
        rw [onesFrom_cons_true, onesFrom_cons_true, stepPos_cons]
        rw [if_neg (by omega)]
        rw [ih]
      | false =>
        rw [onesFrom_cons_false, onesFrom_cons_false]
        exact ih

/-- The pipelining invariant after `t` passes: counting ones from the
right, the `j`-th rightmost one (the head of a suffix of length `j` of the
increasing ones list) is either parked at its final slot `n - j`, or it sits
on the pass parity and has advanced at least `t - j` slots. -/
def posInv (n t : Nat) : List Nat → Prop
  | [] => True
  | q :: rest =>
    ((q :: rest).length ≤ t →
      (q = n - (q :: rest).length ∨ q % 2 = t % 2) ∧
        (n - (q :: rest).length ≤ q ∨ t - (q :: rest).length ≤ q)) ∧ posInv n t rest

@[simp] theorem posInv_nil (n t : Nat) : posInv n t [] := by rw [posInv]; trivial

theorem posInv_cons (n t q : Nat) (rest : List Nat) :
    posInv n t (q :: rest) ↔
      ((q :: rest).length ≤ t →
        (q = n - (q :: rest).length ∨ q % 2 = t % 2) ∧
          (n - (q :: rest).length ≤ q ∨ t - (q :: rest).length ≤ q)) ∧ posInv n t rest := by
  rw [posInv]

theorem posInv_zero (n : Nat) : ∀ L, posInv n 0 L := by
  intro L
  induction L with
  | nil => simp
  | cons q rest ih =>
    refine (posInv_cons n 0 q rest).mpr ⟨?_, ih⟩
    intro h
    simp at h

/-- An increasing list of slots below `n` fits: its head plus its length
stays within `n`. -/
theorem head_add_length_le (n : Nat) :
    ∀ (q : Nat) (rest : List Nat), (q :: rest).Chain' (· < ·) →
      (∀ x ∈ q :: rest, x < n) → q + (q :: rest).length ≤ n := by
  intro q rest
  induction rest generalizing q with
  | nil =>
    intro _ hb
    have := hb q (List.mem_cons_self q _)
    simp only [List.length_cons, List.length_nil]
    omega
  | cons r rest' ih =>
    intro hch hb
    have h1 : q < r := (List.chain'_cons.mp hch).1
    have h2 := ih r (List.chain'_cons.mp hch).2
      (fun x hx => hb x (List.mem_cons_of_mem q hx))
    simp only [List.length_cons] at h2 ⊢
    omega

theorem stepPos_bounded (t n : Nat) :
    ∀ L, (∀ x ∈ L, x < n) → ∀ x ∈ stepPos t n L, x < n := by
  intro L
  induction L with
  | nil => simp
  | cons q rest ih =>
    intro hb x hx
    rw [stepPos_cons] at hx
    rcases List.mem_cons.mp hx with rfl | hx
    · split
      next hc =>
        cases rest with
        | nil => simpa [nextBound] using hc.2
        | cons r rest' =>
          have h1 := hb r (List.mem_cons_of_mem q (List.mem_cons_self r rest'))
          have h2 : q + 1 < r := by simpa [nextBound] using hc.2
          omega
      next => exact hb q (List.mem_cons_self q rest)
    · exact ih (fun y hy => hb y (List.mem_cons_of_mem q hy)) x hx

theorem stepPos_chain (t n : Nat) :
    ∀ L, L.Chain' (· < ·) → (stepPos t n L).Chain' (· < ·) := by
  intro L
  induction L with
  | nil => simp
  | cons q rest ih =>
    intro hch
    cases rest with
    | nil => simp [stepPos_cons]
    | cons r rest' =>
      have h1 : q < r := (List.chain'_cons.mp hch).1
      have hch' := (List.chain'_cons.mp hch).2
      have ihh := ih hch'
      rw [stepPos_cons, stepPos_cons]
      rw [stepPos_cons] at ihh
      apply List.chain'_cons.mpr
      refine ⟨?_, ihh⟩
      split
      next hcq =>
        have hqr : q + 1 < r := by simpa [nextBound] using hcq.2
        split <;> omega
      next => split <;> omega

/-- Preservation of the pipelining invariant by one particle pass. -/
theorem stepPos_posInv (n t : Nat) :
    ∀ L, L.Chain' (· < ·) → (∀ x ∈ L, x < n) → posInv n t L →
      posInv n (t + 1) (stepPos t n L) := by
  intro L
  induction L with
  | nil => intro _ _ _; simp
  | cons q rest ih =>
    intro hch hb hinv
    obtain ⟨hq, hrest⟩ := (posInv_cons n t q rest).mp hinv
    rw [stepPos_cons]
    refine (posInv_cons n (t + 1) _ _).mpr ⟨?_, ?_⟩
    · -- head clause
      intro hlen'
      rw [List.length_cons, stepPos_length] at hlen'
      have hlenle : q + (rest.length + 1) ≤ n := by
        simpa using head_add_length_le n q rest hch hb
      simp only [List.length_cons, stepPos_length]
      by_cases hcond : q % 2 = t % 2 ∧ q + 1 < nextBound n rest
      · rw [if_pos hcond]
        have hnotpark : ¬q = n - (rest.length + 1) := by
          intro hpark
          cases rest with
          | nil =>
            have := hcond.2
            simp only [nextBound] at this
            simp only [List.length_nil] at hpark
            omega
          | cons r rest' =>
            have hr := head_add_length_le n r rest' hch.tail
              (fun x hx => hb x (List.mem_cons_of_mem q hx))
            have hlt : q + 1 < r := by simpa [nextBound] using hcond.2
            simp only [List.length_cons] at hr hpark hlenle
            omega
        refine ⟨Or.inr (by omega), ?_⟩
        rcases Nat.lt_or_ge (rest.length + 1) (t + 1) with hjt | hjt
        · obtain ⟨hpp, hgrow⟩ := hq (by simpa using Nat.lt_succ_iff.mp hjt)
          simp only [List.length_cons] at hpp hgrow
          rcases hgrow with hg | hg
          · exact absurd (by omega) hnotpark
          · right; omega
        · right; omega
      · rw [if_neg hcond]
        by_cases hpar : q % 2 = t % 2
        · have hblock : ¬q + 1 < nextBound n rest := fun hlt => hcond ⟨hpar, hlt⟩
          have hpark : q = n - (rest.length + 1) := by
            cases rest with
            | nil =>
              have : n ≤ q + 1 := by simpa [nextBound] using hblock
              have := hb q (List.mem_cons_self q [])
              simp only [List.length_nil]
              omega
            | cons r rest' =>
              have hqr : q < r := (List.chain'_cons.mp hch).1
              have hblock' : r ≤ q + 1 := by simpa [nextBound] using hblock
              have hreq : r = q + 1 := by omega
              have hact : rest'.length + 1 ≤ t := by
                simp only [List.length_cons] at hlen'
                omega
              obtain ⟨hrpp, _⟩ := ((posInv_cons n t r rest').mp hrest).1
                (by simpa using hact)
              have hr := head_add_length_le n r rest' hch.tail
                (fun x hx => hb x (List.mem_cons_of_mem q hx))
              simp only [List.length_cons] at hrpp hr ⊢
              rcases hrpp with hrpark | hrpar
              · omega
              · omega
          exact ⟨Or.inl hpark, Or.inl (by omega)⟩
        · refine ⟨Or.inr (by omega), ?_⟩
          rcases Nat.lt_or_ge (rest.length + 1) (t + 1) with hjt | hjt
          · obtain ⟨hpp, _⟩ := hq (by simpa using Nat.lt_succ_iff.mp hjt)
            simp only [List.length_cons] at hpp
            rcases hpp with hpark | hpar2
            · left; omega
            · exact absurd hpar2 hpar
          · right; omega
    · exact ih hch.tail (fun x hx => hb x (List.mem_cons_of_mem q hx)) hrest

/-- At `t = n` the invariant forces every one into its final slot: the
ones occupy exactly the last `m` positions. -/
theorem posInv_packed (n : Nat) :
    ∀ L, L.Chain' (· < ·) → (∀ x ∈ L, x < n) → posInv n n L →
      L = List.range' (n - L.length) L.length := by
  intro L
  induction L with
  | nil => simp
  | cons q rest ih =>
    intro hch hb hinv
    obtain ⟨hq, hrest⟩ := (posInv_cons n n q rest).mp hinv
    have hlenle : q + (rest.length + 1) ≤ n := by
      simpa using head_add_length_le n q rest hch hb
    obtain ⟨_, hgrow⟩ := hq (by simp only [List.length_cons]; omega)
    simp only [List.length_cons] at hgrow
    have hqe : q = n - (rest.length + 1) := by omega
    have hrec := ih hch.tail (fun x hx => hb x (List.mem_cons_of_mem q hx)) hrest
    rw [List.length_cons, List.range'_succ, ← hqe]
    congr 1
    conv_lhs => rw [hrec]
    rw [show n - rest.length = q + 1 from by omega]

/-- State of a 0-1 word after `t` full-word transposition passes
(`valid_count` equal to the word length). -/
def boolFold (w : List Bool) (t : Nat) : List Bool :=
  (List.range t).foldl (fun st k => oddEvenPass gtB w.length k st) w

theorem boolFold_succ (w : List Bool) (t : Nat) :
    boolFold w (t + 1) = oddEvenPass gtB w.length t (boolFold w t) := by
  rw [boolFold, boolFold, List.range_succ, List.foldl_append]
  simp

theorem boolFold_length (w : List Bool) (t : Nat) : (boolFold w t).length = w.length :=
  foldPasses_length gtB w.length (List.range t) w

theorem onesFrom_length_le : ∀ (w : List Bool) (i : Nat), (onesFrom i w).length ≤ w.length := by
  intro w
  induction w with
  | nil => intro i; simp
  | cons b t ih =>
    intro i
    cases b with
    | true => rw [onesFrom_cons_true]; simpa using ih (i + 1)
    | false =>
      rw [onesFrom_cons_false]
      have := ih (i + 1)
      simp only [List.length_cons]
      omega

theorem boolFold_posInv (w : List Bool) :
    ∀ t, posInv w.length t (onesFrom 0 (boolFold w t))
  | 0 => posInv_zero _ _
  | t + 1 => by
    have ih := boolFold_posInv w t
    rw [boolFold_succ]
    have hpass := onesFrom_pass t (boolFold w t)
    rw [boolFold_length w t] at hpass
    rw [hpass]
    apply stepPos_posInv w.length t _ (onesFrom_chain _ 0)
    · intro x hx
      have h1 := onesFrom_lt x (boolFold w t) 0 hx
      have h2 := boolFold_length w t
      omega
    · exact ih

/-- `n` alternating passes sort every 0-1 word of length `n`. -/
theorem boolFold_sorted (w : List Bool) : (boolFold w w.length).Chain' (· ≤ ·) := by
  have hlen : (boolFold w w.length).length = w.length := boolFold_length w w.length
  have hinv : posInv w.length w.length (onesFrom 0 (boolFold w w.length)) :=
    boolFold_posInv w w.length
  have hch := onesFrom_chain (boolFold w w.length) 0
  have hbd : ∀ x ∈ onesFrom 0 (boolFold w w.length), x < w.length := by
    intro x hx
    have := onesFrom_lt x (boolFold w w.length) 0 hx
    omega
  have hpack := posInv_packed w.length (onesFrom 0 (boolFold w w.length)) hch hbd hinv
  have hm_le : (onesFrom 0 (boolFold w w.length)).length ≤ w.length := by
    have := onesFrom_length_le (boolFold w w.length) 0
    omega
  rw [List.chain'_iff_get]
  intro i hi
  have key : ∀ (h1 : i < (boolFold w w.length).length)
      (h2 : i + 1 < (boolFold w w.length).length),
      (boolFold w w.length)[i] ≤ (boolFold w w.length)[i + 1] := by
    intro h1 h2
    set m := (onesFrom 0 (boolFold w w.length)).length with hm
    cases hgi : (boolFold w w.length)[i] with
    | false => exact Bool.false_le _
    | true =>
      have hmem : i ∈ onesFrom 0 (boolFold w w.length) :=
        (mem_onesFrom i (boolFold w w.length) 0).mpr ⟨i, h1, hgi, by omega⟩
      rw [hpack] at hmem
      have hint := List.mem_range'_1.mp hmem
      have hi1 : i + 1 ∈ List.range' (w.length - m) m := by
        apply List.mem_range'_1.mpr
        constructor
        · omega
        · omega
      rw [← hpack] at hi1
      obtain ⟨j, hj, hwj, hij⟩ := (mem_onesFrom (i + 1) (boolFold w w.length) 0).mp hi1
      have hji : j = i + 1 := by omega
      subst hji
      rw [hwj]
  exact key (by omega) (by omega)

/-- An integer sequence is sorted as soon as all its 0-1 threshold images
are. -/
theorem chain_le_of_thresholds :
    ∀ (l : List Int), (∀ c : Int, ((l.map (fun x => decide (c ≤ x))).Chain' (· ≤ ·))) →
      l.Chain' (· ≤ ·)
  | [], _ => by simp
  | [x], _ => by simp
  | x :: y :: t, h => by
    apply List.chain'_cons.mpr
    constructor
    · have hx := h x
      simp only [List.map_cons] at hx
      have h1 := (List.chain'_cons.mp hx).1
      rw [show decide (x ≤ x) = true by simp] at h1
      have h3 : decide (x ≤ y) = true := by
        cases hb : decide (x ≤ y)
        · rw [hb] at h1; exact absurd h1 (by decide)
        · rfl
      simpa using h3
    · refine chain_le_of_thresholds (y :: t) ?_
      intro c
      have hc := h c
      simp only [List.map_cons] at hc ⊢
      exact hc.tail

theorem foldPasses_map {α β : Type} (f : α → β) (gtA : α → α → Bool) (gtB' : β → β → Bool)
    (hcomm : ∀ a b, gtB' (f a) (f b) = gtA a b ∨ f a = f b) (vc : Nat) (ks : List Nat) :
    ∀ l, (ks.foldl (fun st k => oddEvenPass gtA vc k st) l).map f =
      ks.foldl (fun st k => oddEvenPass gtB' vc k st) (l.map f) := by
  induction ks with
  | nil => intro l; rfl
  | cons k ks ih =>
    intro l
    simp only [List.foldl_cons]
    rw [ih, oddEvenPass_map f gtA gtB' hcomm]

/-- Value-only form of the transposition loop (the `data` buffer alone). -/
def sortNmsVals (isAscend : Bool) (vc : Nat) (l : List Int) : List Int :=
  (List.range vc).foldl (fun st k => oddEvenPass (nmsSwap isAscend) vc k st) l

theorem sortNms_map_fst (isAscend : Bool) (vc : Nat) (l : List (Int × Nat)) :
    ((List.range vc).foldl (fun st k => oddEvenPass (nmsSwapP isAscend) vc k st) l).map
        Prod.fst = sortNmsVals isAscend vc (l.map Prod.fst) := by
  rw [sortNmsVals]
  exact foldPasses_map Prod.fst (nmsSwapP isAscend) (nmsSwap isAscend)
    (fun a b => Or.inl rfl) vc (List.range vc) l

/-- The ascending transposition loop with as many passes as elements sorts
its buffer. -/
theorem sortNmsVals_sorted_asc (l : List Int) :
    (sortNmsVals true l.length l).Chain' (· ≤ ·) := by
  apply chain_le_of_thresholds
  intro c
  have hcomm : ∀ a b : Int,
      gtB (decide (c ≤ a)) (decide (c ≤ b)) = nmsSwap true a b ∨
        (decide (c ≤ a)) = (decide (c ≤ b)) := by
    intro a b
    by_cases h1 : c ≤ a <;> by_cases h2 : c ≤ b
    · exact Or.inr (by simp [h1, h2])
    · refine Or.inl ?_
      have : b < a := by omega
      simp [h1, h2, gtB, nmsSwap, this]
    · refine Or.inl ?_
      have : ¬b < a := by omega
      simp [h1, h2, gtB, nmsSwap, this]
    · exact Or.inr (by simp [h1, h2])
  rw [sortNmsVals, foldPasses_map (fun x => decide (c ≤ x)) (nmsSwap true) gtB hcomm]
  have e : l.length = (l.map (fun x => decide (c ≤ x))).length := by simp
  rw [e]
  exact boolFold_sorted (l.map (fun x => decide (c ≤ x)))

/-- The descending loop is the ascending loop on negated values. -/
theorem sortNmsVals_desc_neg (vc : Nat) (l : List Int) :
    (sortNmsVals false vc l).map (fun x : Int => -x) =
      sortNmsVals true vc (l.map (fun x : Int => -x)) := by
  rw [sortNmsVals, sortNmsVals]
  apply foldPasses_map (fun x : Int => -x) (nmsSwap false) (nmsSwap true)
  intro a b
  refine Or.inl ?_
  simp [nmsSwap]

theorem sortNmsVals_sorted_desc (l : List Int) :
    (sortNmsVals false l.length l).Chain' (· ≥ ·) := by
  have h := sortNmsVals_sorted_asc (l.map (fun x : Int => -x))
  rw [List.length_map, ← sortNmsVals_desc_neg] at h
  rw [List.chain'_map] at h
  exact h.imp (fun hab => by simpa using hab)

/-- Both directions together, phrased with the engine comparator. -/
theorem sortNmsVals_sorted (isAscend : Bool) (l : List Int) :
    (sortNmsVals isAscend l.length l).Chain' (fun a b => cmpLe isAscend a b = true) := by
  cases isAscend with
  | true =>
    exact (sortNmsVals_sorted_asc l).imp (fun hab => by simpa [cmpLe] using hab)
  | false =>
    exact (sortNmsVals_sorted_desc l).imp (fun hab => by simpa [cmpLe] using hab)

theorem sortNmsVals_perm (isAscend : Bool) (vc : Nat) (l : List Int) :
    (sortNmsVals isAscend vc l).Perm l :=
  foldPasses_perm (nmsSwap isAscend) vc (List.range vc) l

/-- The first `valid_count` output slots are the value-only transposition
loop run on the first `valid_count` input values. -/
theorem sortNms_take_eq (isAscend : Bool) (vc : Nat) (data : List Int)
    (hvc : vc ≤ data.length) :
    (sortNmsValues isAscend vc data).take vc = sortNmsVals isAscend vc (data.take vc) := by
  rw [sortNmsValues, sortNms_decomp isAscend vc data hvc, List.map_append]
  rw [List.take_left' (by
    rw [List.length_map, foldPasses_length, List.length_take, seedPairs_length]
    omega)]
  rw [sortNms_map_fst, List.map_take, seedPairs_map_fst]

/-- After `valid_count` passes the first `valid_count` value slots are
sorted in the requested direction. -/
theorem sortNms_take_sorted (isAscend : Bool) (vc : Nat) (data : List Int)
    (hvc : vc ≤ data.length) :
    ((sortNmsValues isAscend vc data).take vc).Chain'
      (fun a b => cmpLe isAscend a b = true) := by
  rw [sortNms_take_eq isAscend vc data hvc]
  set l := data.take vc with hl
  have hlen : l.length = vc := by rw [hl, List.length_take]; omega
  rw [← hlen]
  exact sortNmsVals_sorted isAscend l

/-- The first `valid_count` output slots hold exactly the original first
`valid_count` values. -/
theorem sortNms_take_perm (isAscend : Bool) (vc : Nat) (data : List Int)
    (hvc : vc ≤ data.length) :
    ((sortNmsValues isAscend vc data).take vc).Perm (data.take vc) := by
  rw [sortNms_take_eq isAscend vc data hvc]
  exact sortNmsVals_perm isAscend vc (data.take vc)

theorem nmsSwap_eq_false_iff (isAscend : Bool) (x y : Int) :
    nmsSwap isAscend x y = false ↔ cmpLe isAscend x y = true := by
  cases isAscend <;> simp [nmsSwap, cmpLe]

/-- On a prefix already sorted for the requested direction, the segmented
engine leaves the value buffer unchanged. -/
theorem sortNmsValues_of_prefix_sorted (isAscend : Bool) (vc : Nat) (data : List Int)
    (h : (data.take vc).Chain' (fun a b => cmpLe isAscend a b = true)) :
    sortNmsValues isAscend vc data = data := by
  have h2 : (((seedPairs data).take vc).map Prod.fst).Chain'
      (fun a b => nmsSwap isAscend a b = false) := by
    rw [List.map_take, seedPairs_map_fst]
    exact h.imp (fun {a b} hab => (nmsSwap_eq_false_iff isAscend a b).mpr hab)
  have h3 := (List.chain'_map Prod.fst).mp h2
  rw [sortNmsValues, sortNms_of_chain isAscend vc data h3, seedPairs_map_fst]

/-- The segmented engine also leaves the index buffer at identity on a
sorted prefix. -/
theorem sortNms_of_prefix_sorted (isAscend : Bool) (vc : Nat) (data : List Int)
    (h : (data.take vc).Chain' (fun a b => cmpLe isAscend a b = true)) :
    sortNms isAscend vc data = seedPairs data := by
  have h2 : (((seedPairs data).take vc).map Prod.fst).Chain'
      (fun a b => nmsSwap isAscend a b = false) := by
    rw [List.map_take, seedPairs_map_fst]
    exact h.imp (fun {a b} hab => (nmsSwap_eq_false_iff isAscend a b).mpr hab)
  exact sortNms_of_chain isAscend vc data ((List.chain'_map Prod.fst).mp h2)

/-! ## The `topk` and `argsort` facades -/

/-- Axis normalization of the facades: `axis = axis + ndim if axis < 0
else axis`. -/
def normAxis (axis : Int) (ndim : Nat) : Int :=
  if axis < 0 then axis + ndim else axis

/-- The synchronous configuration checks of `topk`, for a tensor of rank
`ndim`: `assert ret_type in ["both", "values", "indices"]` and
`assert 0 <= axis < ndim` after normalization. -/
def topkChecks (ndim : Nat) (axis : Int) (retType : String) : Prop :=
  (retType = "both" ∨ retType = "values" ∨ retType = "indices") ∧
    0 ≤ normAxis axis ndim ∧ normAxis axis ndim < ndim

instance (ndim : Nat) (axis : Int) (retType : String) :
    Decidable (topkChecks ndim axis retType) := by
  unfold topkChecks
  infer_instance

/-- The pair of buffers `topk` declares for the sorted values and indices:
both are declared with `data.shape` (`decl_buffer(data.shape, …)`), so the
paired buffers always agree in shape. -/
def topkValueBufShape (shape : List Nat) : List Nat := shape

/-- Shape of the index buffer declared by `topk`, also `data.shape`. -/
def topkIndexBufShape (shape : List Nat) : List Nat := shape

/-- Result of the `topk` facade: the value and/or index tensor selected by
`ret_type`. -/
structure TopkResult where
  values : Option (List Int)
  indices : Option (List Nat)
  deriving Repr, DecidableEq

/-- The `topk` facade on one axis sequence (rank 1, so the only valid
normalized axis is 0), parametrised by the sort engine it schedules: run
the checks, sort, then either return the whole sorted output (`k < 1`) or
slice the sorted axis to its first `k` entries, returning the buffers that
`ret_type` selects.  When `ret_type == "values"` the engine is invoked
without index buffers, so no index output exists. -/
def topk1 (engine : List Int → List (Int × Nat)) (data : List Int) (k : Int)
    (axis : Int) (retType : String) : Option TopkResult :=
  if topkChecks 1 axis retType then
    let sorted := engine data
    let values := sorted.map Prod.fst
    let indices := sorted.map Prod.snd
    if k < 1 then
      if retType = "values" then some ⟨some values, none⟩
      else if retType = "indices" then some ⟨none, some indices⟩
      else some ⟨some values, some indices⟩
    else
      if retType = "values" then some ⟨some (values.take k.toNat), none⟩
      else if retType = "indices" then some ⟨none, some (indices.take k.toNat)⟩
      else some ⟨some (values.take k.toNat), some (indices.take k.toNat)⟩
  else none

/-- The `topk` operator: the facade driving the merge-sort engine. -/
def topkModel (data : List Int) (k : Int) (axis : Int) (retType : String)
    (isAscend : Bool) : Option TopkResult :=
  topk1 (sortIrOut isAscend) data k axis retType

/-- The `identity(data)` tensor the `argsort` facade materialises before
handing anything to the in-place segmented engine. -/
def identityT (l : List Int) : List Int := l.map (fun x => x)

/-- The `argsort(data, valid_count)` facade over an explicit buffer store
(one segment): `heap` is the list of live value buffers and `a` the
caller's buffer.  The facade materialises `identity(data)` as a fresh
buffer, lets `sort_nms_ir` sort that copy in place, and returns only the
index buffer.  The returned store shows which value buffer the engine
mutated. -/
def argsortNmsRun (isAscend : Bool) (vc : Nat) (heap : List (List Int)) (a : Nat) :
    List (List Int) × List Nat :=
  let data := heap.getD a []
  let heap₁ := heap ++ [identityT data]
  let b := heap.length
  let sorted := sortNms isAscend vc (heap₁.getD b [])
  (heap₁.set b (sorted.map Prod.fst), sorted.map Prod.snd)

theorem identityT_eq (l : List Int) : identityT l = l := by
  simp [identityT]

instance cmpLe_isTrans (isAscend : Bool) :
    IsTrans Int (fun a b => cmpLe isAscend a b = true) where
  trans := by
    intro a b c hab hbc
    cases isAscend <;> simp [cmpLe] at * <;> omega

/-- The general `topk` slicing behaviour for both `k` regimes and all three
`ret_type` values, on the merge-sort engine. -/
theorem topkModel_spec (data : List Int) (k : Int) (isAscend : Bool) :
    (1 ≤ k →
      topkModel data k 0 "both" isAscend =
          some ⟨some ((sortIrValues isAscend data).take k.toNat),
            some ((sortIrIndices isAscend data).take k.toNat)⟩ ∧
        topkModel data k 0 "values" isAscend =
          some ⟨some ((sortIrValues isAscend data).take k.toNat), none⟩ ∧
        topkModel data k 0 "indices" isAscend =
          some ⟨none, some ((sortIrIndices isAscend data).take k.toNat)⟩) ∧
      (k < 1 →
        topkModel data k 0 "both" isAscend =
            some ⟨some (sortIrValues isAscend data),
              some (sortIrIndices isAscend data)⟩ ∧
          topkModel data k 0 "values" isAscend =
            some ⟨some (sortIrValues isAscend data), none⟩ ∧
          topkModel data k 0 "indices" isAscend =
            some ⟨none, some (sortIrIndices isAscend data)⟩) := by
  constructor
  · intro hk
    refine ⟨?_, ?_, ?_⟩
    · rw [topkModel, topk1, if_pos (by decide), if_neg (by omega : ¬k < 1),
        if_neg (by decide : ¬("both" : String) = "values"),
        if_neg (by decide : ¬("both" : String) = "indices")]
      rfl
    · rw [topkModel, topk1, if_pos (by decide), if_neg (by omega : ¬k < 1),
        if_pos (by decide : ("values" : String) = "values")]
      rfl
    · rw [topkModel, topk1, if_pos (by decide), if_neg (by omega : ¬k < 1),
        if_neg (by decide : ¬("indices" : String) = "values"),
        if_pos (by decide : ("indices" : String) = "indices")]
      rfl
  · intro hk
    refine ⟨?_, ?_, ?_⟩
    · rw [topkModel, topk1, if_pos (by decide), if_pos hk,
        if_neg (by decide : ¬("both" : String) = "values"),
        if_neg (by decide : ¬("both" : String) = "indices")]
      rfl
    · rw [topkModel, topk1, if_pos (by decide), if_pos hk,
        if_pos (by decide : ("values" : String) = "values")]
      rfl
    · rw [topkModel, topk1, if_pos (by decide), if_pos hk,
        if_neg (by decide : ¬("indices" : String) = "values"),
        if_pos (by decide : ("indices" : String) = "indices")]
      rfl

/-! ## The claims -/

/-- C1: for every finite input sequence along the sort axis and both
comparator directions, the merge-sort engine's output values (first
conjunct) — and in fact its whole value/index output (second conjunct) —
equal those of the reference stable sort in which ties across a merge
boundary are resolved in favor of the left (earlier) run: ascending emits
the left element when `left ≤ right`, descending when `right ≤ left`, and
once either cursor exhausts its half the remainder of the other half is
copied verbatim. -/
theorem claim_C1 (isAscend : Bool) (data : List Int) :
    sortIrValues isAscend data =
        (stableSortSpec isAscend (seedPairs data)).map Prod.fst ∧
      sortIrOut isAscend data = stableSortSpec isAscend (seedPairs data) := by
  have h := sortIrOut_eq_stableSort isAscend data
  exact ⟨by rw [sortIrValues, h], h⟩

/-- C2: when index tracking is requested, every output slot `i` satisfies
`values_out[i] = data[indices_out[i]]`: the index buffer is seeded with
each element's own axis position and moves in lockstep with the values, so
the indices form the permutation that produced the sorted values. -/
theorem claim_C2 (isAscend : Bool) (data : List Int) (i : Nat) :
    (sortIrValues isAscend data)[i]? =
      ((sortIrIndices isAscend data)[i]?).bind (fun j => data[j]?) := by
  by_cases hi : i < (sortIrOut isAscend data).length
  · rw [sortIrValues, sortIrIndices, List.getElem?_map, List.getElem?_map,
      List.getElem?_eq_getElem hi]
    obtain ⟨hlt, hval⟩ := sortIrOut_mem isAscend data (List.getElem_mem hi)
    simp only [Option.map_some', Option.some_bind]
    rw [List.getElem?_eq_getElem hlt, hval]
  · have hi' : (sortIrOut isAscend data).length ≤ i := by omega
    rw [sortIrValues, sortIrIndices, List.getElem?_map, List.getElem?_map,
      List.getElem?_eq_none hi']
    rfl

/-- C3: for every segment with `validCount ≤ axisLen`, after the
`validCount` odd-even passes (swapping on `>` ascending, `<` descending)
the first `validCount` slots are sorted in the requested direction and
hold exactly the original first `validCount` values; in particular one
segment `[9,7,8,2,2]` with `validCount = 3` ascending yields first slots
`[7,8,9]` with matching index updates and slots 3–4 left at `[2,2]`. -/
theorem claim_C3 (isAscend : Bool) (vc : Nat) (data : List Int)
    (hvc : vc ≤ data.length) :
    ((sortNmsValues isAscend vc data).take vc).Chain'
        (fun a b => cmpLe isAscend a b = true) ∧
      ((sortNmsValues isAscend vc data).take vc).Perm (data.take vc) ∧
      sortNms true 3 [9, 7, 8, 2, 2] = [(7, 1), (8, 2), (9, 0), (2, 3), (2, 4)] :=
  ⟨sortNms_take_sorted isAscend vc data hvc,
    sortNms_take_perm isAscend vc data hvc, by decide⟩

theorem claim_C3_witness :
    ((sortNmsValues true 3 [9, 7, 8, 2, 2]).take 3).Perm
      (([9, 7, 8, 2, 2] : List Int).take 3) :=
  (claim_C3 true 3 [9, 7, 8, 2, 2] (by decide)).2.1

/-- C4: slots at positions `≥ validCount` are never touched by the
segmented sort: a pair `(p, p+1)` is only compared when
`p + 1 < validCount`, so those slots keep their post-initialization
contents — the input data value and the identity index. -/
theorem claim_C4 (isAscend : Bool) (vc : Nat) (data : List Int) (q : Nat)
    (hvc : vc ≤ data.length) (hq : vc ≤ q) :
    (sortNms isAscend vc data)[q]? = (seedPairs data)[q]? ∧
      ∀ hlt : q < data.length,
        (sortNms isAscend vc data)[q]? = some (data[q], q) := by
  refine ⟨sortNms_frame isAscend vc data hvc q hq, ?_⟩
  intro hlt
  rw [sortNms_frame isAscend vc data hvc q hq]
  have hq2 : q < (seedPairs data).length := by rw [seedPairs_length]; omega
  rw [List.getElem?_eq_getElem hq2, seedPairs_getElem]
  simp only [List.get_eq_getElem]

theorem claim_C4_witness :
    (sortNms true 2 [5, 1, 4, 2])[3]? = some ((2 : Int), (3 : Nat)) :=
  (claim_C4 true 2 [5, 1, 4, 2] 3 (by decide) (by decide)).2 (by decide)

/-- C5: the ping-pong buffer roles are a pure function of round parity —
at round `r` the source is buffer A (`values_out`) for even `r` and
buffer B (the swap) for odd `r`, the destination being the other — and
after all rounds the output is read from B exactly when the round count is
odd (the final copy), from A when it is even; together this equals running
the rounds on one logical buffer. -/
theorem claim_C5 (isAscend : Bool) (data : List Int) :
    (∀ (st : PingPong) (r : Nat), r % 2 = 0 →
        roundStep isAscend st r =
          ⟨st.bufA, mergeChunks isAscend (2 ^ (r + 1)) st.bufA⟩) ∧
      (∀ (st : PingPong) (r : Nat), r % 2 = 1 →
        roundStep isAscend st r =
          ⟨mergeChunks isAscend (2 ^ (r + 1)) st.bufB, st.bufB⟩) ∧
      (numRounds data.length % 2 = 1 →
        sortIrOut isAscend data = (sortIrRun isAscend data).bufB) ∧
      (numRounds data.length % 2 = 0 →
        sortIrOut isAscend data = (sortIrRun isAscend data).bufA) ∧
      sortIrOut isAscend data = straightSort isAscend data := by
  refine ⟨?_, ?_, ?_, ?_, sortIrOut_eq_straight isAscend data⟩
  · intro st r hr
    rw [roundStep, if_pos hr]
  · intro st r hr
    rw [roundStep, if_neg (by omega)]
  · intro h
    rw [sortIrOut, if_pos h]
  · intro h
    rw [sortIrOut, if_neg (by omega)]

theorem claim_C5_witness :
    sortIrOut true [5, 3, 4, 1, 2] = (sortIrRun true [5, 3, 4, 1, 2]).bufB ∧
      roundStep true ⟨[], []⟩ 0 = ⟨[], mergeChunks true 2 []⟩ :=
  ⟨(claim_C5 true [5, 3, 4, 1, 2]).2.2.1 (by decide),
    (claim_C5 true [5, 3, 4, 1, 2]).1 ⟨[], []⟩ 0 (by decide)⟩

/-- C6: the `topk` facade slices the sorted axis to the first `k` entries
when `k ≥ 1` and returns the entire sorted result when `k < 1`, selecting
the returned buffers according to `ret_type ∈ {values, indices, both}`;
in particular values `[1,5,3]`, descending, `k = 2` yield values `[5,3]`
and indices `[1,2]`. -/
theorem claim_C6 (data : List Int) (k : Int) (isAscend : Bool) :
    (1 ≤ k →
      topkModel data k 0 "both" isAscend =
          some ⟨some ((sortIrValues isAscend data).take k.toNat),
            some ((sortIrIndices isAscend data).take k.toNat)⟩ ∧
        topkModel data k 0 "values" isAscend =
          some ⟨some ((sortIrValues isAscend data).take k.toNat), none⟩ ∧
        topkModel data k 0 "indices" isAscend =
          some ⟨none, some ((sortIrIndices isAscend data).take k.toNat)⟩) ∧
      (k < 1 →
        topkModel data k 0 "both" isAscend =
            some ⟨some (sortIrValues isAscend data),
              some (sortIrIndices isAscend data)⟩ ∧
          topkModel data k 0 "values" isAscend =
            some ⟨some (sortIrValues isAscend data), none⟩ ∧
          topkModel data k 0 "indices" isAscend =
            some ⟨none, some (sortIrIndices isAscend data)⟩) ∧
      topkModel [1, 5, 3] 2 0 "both" false = some ⟨some [5, 3], some [1, 2]⟩ := by
  refine ⟨(topkModel_spec data k isAscend).1, (topkModel_spec data k isAscend).2, ?_⟩
  have h := ((topkModel_spec [1, 5, 3] 2 false).1 (by norm_num)).1
  rw [h, sortIrValues, sortIrIndices, sortIrOut_eq_stableSort]
  decide

theorem claim_C6_witness :
    topkModel [4, 9] 1 0 "values" true = some ⟨some [4], none⟩ := by
  have h := ((claim_C6 [4, 9] 1 true).1 (by norm_num)).2.1
  rw [h, sortIrValues, sortIrOut_eq_stableSort]
  decide

/-- C7: configuration errors — `ret_type` outside the allowed set, a
normalized axis outside `[0, rank)`, and rank 0 (for which no axis can be
in range) — are detected by the facade's synchronous asserts and reported
before any engine work: an invalid configuration yields the error outcome
regardless of which engine is plugged in.  Paired value/index buffers are
declared with the data's own shape, so their shapes always agree and no
shape mismatch can arise. -/
theorem claim_C7 :
    (∀ (axis : Int) (retType : String), ¬topkChecks 0 axis retType) ∧
      (∀ (engine : List Int → List (Int × Nat)) (data : List Int) (k axis : Int)
          (retType : String),
        topk1 engine data k axis retType = none ↔ ¬topkChecks 1 axis retType) ∧
      (∀ (e₁ e₂ : List Int → List (Int × Nat)) (data : List Int) (k axis : Int)
          (retType : String), ¬topkChecks 1 axis retType →
        topk1 e₁ data k axis retType = topk1 e₂ data k axis retType) ∧
      (∀ shape : List Nat, topkValueBufShape shape = topkIndexBufShape shape) := by
  refine ⟨?_, ?_, ?_, fun _ => rfl⟩
  · rintro axis rt ⟨_, h1, h2⟩
    simp only [Nat.cast_zero] at h2
    omega
  · intro e data k axis rt
    by_cases h : topkChecks 1 axis rt
    · rw [topk1, if_pos h]
      constructor
      · intro hnone
        exfalso
        revert hnone
        split <;> split <;> [skip; split; skip; split] <;> simp
      · intro hcon
        exact absurd h hcon
    · rw [topk1, if_neg h]
      simp [h]
  · intro e₁ e₂ data k axis rt h
    rw [topk1, topk1, if_neg h, if_neg h]

theorem claim_C7_witness :
    topk1 (sortIrOut true) [1, 2] 1 0 "bogus" =
      topk1 (fun _ => []) [1, 2] 1 0 "bogus" :=
  claim_C7.2.2.1 (sortIrOut true) (fun _ => []) [1, 2] 1 0 "bogus" (by decide)

/-- C8: with `axisLen ≤ 1` the round count `lim = ceil(log2 axisLen)` is 0,
so only the seed pass runs: no merge rounds, no final writeback copy, and
the output values (with identity indices) equal the input. -/
theorem claim_C8 (isAscend : Bool) (data : List Int) (h : data.length ≤ 1) :
    numRounds data.length = 0 ∧
      sortIrRun isAscend data = ⟨seedPairs data, []⟩ ∧
      sortIrValues isAscend data = data ∧
      sortIrIndices isAscend data = List.range data.length := by
  have h0 : numRounds data.length = 0 := by
    have h1 : data.length = 0 ∨ data.length = 1 := by omega
    rcases h1 with h1 | h1 <;> rw [h1] <;> decide
  refine ⟨h0, ?_, ?_, ?_⟩
  · rw [sortIrRun, h0]
    rfl
  · rw [sortIrValues, sortIrOut, h0, if_neg (by decide), sortIrRun, h0]
    exact seedPairs_map_fst data
  · rw [sortIrIndices, sortIrOut, h0, if_neg (by decide), sortIrRun, h0]
    exact seedPairs_map_snd data

theorem claim_C8_witness : sortIrValues true [7] = [7] :=
  (claim_C8 true [7] (by decide)).2.2.1

/-- C9: sorting is idempotent on sorted input: a sequence already sorted in
the requested direction passes unchanged through the merge-sort engine and
(for any `validCount`) through the segmented transposition engine. -/
theorem claim_C9 (isAscend : Bool) (data : List Int) (vc : Nat)
    (hsort : data.Chain' (fun a b => cmpLe isAscend a b = true)) :
    sortIrValues isAscend data = data ∧ sortNmsValues isAscend vc data = data := by
  constructor
  · have hs : dirSorted isAscend data := List.chain'_iff_pairwise.mp hsort
    rw [sortIrValues, sortIrOut_of_dirSorted isAscend data hs, seedPairs_map_fst]
  · exact sortNmsValues_of_prefix_sorted isAscend vc data (hsort.take vc)

theorem claim_C9_witness :
    sortIrValues true [1, 2, 2, 5] = [1, 2, 2, 5] ∧
      sortNmsValues true 3 [1, 2, 2, 5] = [1, 2, 2, 5] :=
  claim_C9 true [1, 2, 2, 5] 3
    (by norm_num [List.chain'_cons, List.chain'_singleton, cmpLe])

/-- C10: `argsort` with a `valid_count` leaves the caller's data buffer
unchanged: the facade materialises a fresh `identity(data)` copy, hands
only that copy to the in-place segmented engine (which mutates it into the
sorted values), and returns just the index buffer. -/
theorem claim_C10 (isAscend : Bool) (vc : Nat) (heap : List (List Int)) (a : Nat)
    (ha : a < heap.length) :
    ((argsortNmsRun isAscend vc heap a).1)[a]? = heap[a]? ∧
      (argsortNmsRun isAscend vc heap a).2 =
        sortNmsIndices isAscend vc (heap.getD a []) ∧
      ((argsortNmsRun isAscend vc heap a).1)[heap.length]? =
        some (sortNmsValues isAscend vc (heap.getD a [])) := by
  have hcopy : (heap ++ [identityT (heap.getD a [])]).getD heap.length [] =
      heap.getD a [] := by
    rw [List.getD, List.get?_append_right le_rfl, Nat.sub_self]
    simp [identityT_eq]
  refine ⟨?_, ?_, ?_⟩
  · show ((heap ++ [identityT (heap.getD a [])]).set heap.length _)[a]? = heap[a]?
    rw [List.getElem?_set_ne (by omega), List.getElem?_append_left ha]
  · show (sortNms isAscend vc
        ((heap ++ [identityT (heap.getD a [])]).getD heap.length [])).map Prod.snd = _
    rw [hcopy, sortNmsIndices]
  · show ((heap ++ [identityT (heap.getD a [])]).set heap.length _)[heap.length]? = _
    rw [List.getElem?_set_self', List.getElem?_append_right le_rfl, Nat.sub_self]
    simp only [List.getElem?_cons_zero, Option.map_eq_map, Option.map_some']
    rw [hcopy]
    rfl

theorem claim_C10_witness :
    (argsortNmsRun true 3 [[3, 1, 2]] 0).2 =
      sortNmsIndices true 3 ([[3, 1, 2]].getD 0 []) :=
  (claim_C10 true 3 [[3, 1, 2]] 0 (by decide)).2.1

end TvmSort
